import Mathlib

/-!
Shallow embedding of the batch query plan fragmenter
(`src/frontend/src/scheduler/plan_fragmenter.rs`).

HashMap / HashSet are modelled as association lists / lists with set
semantics; `unwrap` panics and out-of-bounds indexing are modelled by
`Option`.  The worker-node-manager snapshot is a constant `wc : Nat`
(the spec assumes `worker_node_count()` is stable during one `split`),
and the random UUID drawn by `QueryId::default` is an explicit entropy
parameter rendered to a string.
-/

namespace PlanFragmenter

/-- Model of `PlanNodeType` from the optimizer; the fragmenter branches only on
`BatchExchange`.  Other operator kinds are collapsed into named variants
plus a generic `other`. -/
inductive PlanNodeType where
  | BatchExchange
  | BatchSeqScan
  | BatchHashJoin
  | other (tag : Nat)
deriving DecidableEq, Repr

/-- Model of the `Distribution` property from the optimizer (only its identity matters
to the fragmenter; `to_prost` pairs it with a target parallelism). -/
inductive Distribution where
  | Single
  | HashShard (keys : List Nat)
  | Broadcast
  | AnyShard
deriving DecidableEq, Repr

/-- Wire-level `ExchangeInfo`: result of `Distribution::to_prost(parallelism)`,
kept as the pair (distribution, parallelism) since the fragmenter treats it
as opaque. -/
structure ExchangeInfo where
  dist : Distribution
  parallelism : Nat
deriving DecidableEq, Repr

/-- Model of `Distribution::to_prost(parallelism)`. -/
def Distribution.to_prost (d : Distribution) (parallelism : Nat) : ExchangeInfo :=
  ⟨d, parallelism⟩

/-- Model of `PlanRef`: the input plan tree.  Fields mirror the capabilities the
fragmenter reads: `plan_base().id`, `node_type()`, `to_batch_prost_body()`
(opaque, a `Nat` here), `schema().to_prost()` (opaque, a `List Nat`),
`distribution()` and `inputs()`. -/
inductive PlanRef where
  | node (id : Nat) (ty : PlanNodeType) (body : Nat) (schema : List Nat)
         (dist : Distribution) (inputs : List PlanRef)
deriving Repr

def PlanRef.node_type : PlanRef → PlanNodeType
  | .node _ ty _ _ _ _ => ty

def PlanRef.inputs : PlanRef → List PlanRef
  | .node _ _ _ _ _ is => is

def PlanRef.distribution : PlanRef → Distribution
  | .node _ _ _ _ d _ => d

/-- Model of `ExecutionPlanNode`. -/
inductive ExecutionPlanNode where
  | mk (plan_node_id : Nat) (plan_node_type : PlanNodeType) (node : Nat)
       (schema : List Nat) (children : List ExecutionPlanNode)
       (stage_id : Option Nat)
deriving Repr

def ExecutionPlanNode.plan_node_type : ExecutionPlanNode → PlanNodeType
  | .mk _ ty _ _ _ _ => ty

def ExecutionPlanNode.children : ExecutionPlanNode → List ExecutionPlanNode
  | .mk _ _ _ _ cs _ => cs

def ExecutionPlanNode.stage_id : ExecutionPlanNode → Option Nat
  | .mk _ _ _ _ _ s => s

/-- Model of `impl From<PlanRef> for ExecutionPlanNode`: children empty, stage_id
unset. -/
def ExecutionPlanNode.ofPlan : PlanRef → ExecutionPlanNode
  | .node id ty body schema _ _ => .mk id ty body schema [] none

/-- Model of `QueryStage` (the `plan_root` field of the builder is dropped at
`finish`; we keep exactly the fields of the published `QueryStage`). -/
structure QueryStage where
  query_id : String
  id : Nat
  root : ExecutionPlanNode
  exchange_info : ExchangeInfo
  parallelism : Nat
deriving Repr

/-! ### HashMap / HashSet models -/

/-- Model of `HashMap::get`. -/
def mapGet {α : Type} (m : List (Nat × α)) (k : Nat) : Option α :=
  (m.find? (fun p => p.1 == k)).map Prod.snd

/-- Model of `HashMap::insert` (overwrites an existing binding). -/
def mapInsert {α : Type} (m : List (Nat × α)) (k : Nat) (v : α) : List (Nat × α) :=
  (k, v) :: m.filter (fun p => ¬ p.1 == k)

/-- Model of `HashSet::insert` (idempotent). -/
def setInsert (s : List Nat) (x : Nat) : List Nat :=
  if x ∈ s then s else s ++ [x]

/-- Membership `c ∈ child_edges[p]` (false when the key is absent). -/
def edgeMem (m : List (Nat × List Nat)) (p c : Nat) : Prop :=
  ∃ s, mapGet m p = some s ∧ c ∈ s

instance (m : List (Nat × List Nat)) (p c : Nat) : Decidable (edgeMem m p c) := by
  unfold edgeMem
  exact inferInstance

/-! ### Stage graph builder state -/

/-- The mutable state of `BatchPlanFragmenter` (`next_stage_id`) together
with its `StageGraphBuilder` (the three maps). -/
structure FragState where
  next : Nat
  stages : List (Nat × QueryStage)
  child_edges : List (Nat × List Nat)
  parent_edges : List (Nat × List Nat)
deriving Repr

/-- Model of `StageGraphBuilder::add_node`: initialize both edge sets to empty and
insert the stage. -/
def addNode (st : FragState) (stage : QueryStage) : FragState :=
  { st with
    child_edges := mapInsert st.child_edges stage.id []
    parent_edges := mapInsert st.parent_edges stage.id []
    stages := mapInsert st.stages stage.id stage }

/-- Model of `StageGraphBuilder::link_to_child`: `get_mut(..).unwrap()` on a missing
key is a panic, modelled as `none`. -/
def linkToChild (st : FragState) (parent_id child_id : Nat) : Option FragState :=
  match mapGet st.child_edges parent_id with
  | none => none
  | some cs =>
    match mapGet st.parent_edges child_id with
    | none => none
    | some ps =>
      some { st with
             child_edges := mapInsert st.child_edges parent_id (setInsert cs child_id)
             parent_edges := mapInsert st.parent_edges child_id (setInsert ps parent_id) }

/-- The `link_to_child` loop at the end of `QueryStageBuilder::finish`. -/
def linkAll (st : FragState) (parent_id : Nat) (cs : List QueryStage) : Option FragState :=
  cs.foldlM (fun s c => linkToChild s parent_id c.id) st

/-! ### The fragmenter recursion -/

mutual

/-- Model of `BatchPlanFragmenter::visit_node` (the `BatchExchange` arm inlines
`visit_exchange`, which in turn calls `new_stage` on `node.inputs()[0]`;
an empty `inputs()` is the out-of-bounds panic, hence `none`).
Returns the constructed `ExecutionPlanNode`, the child stages pushed to
`builder.children_stages` while visiting this subtree, and the updated
fragmenter state. -/
def visitNode (wc : Nat) (qid : String) (parallelism : Nat) (node : PlanRef)
    (st : FragState) : Option (ExecutionPlanNode × List QueryStage × FragState) :=
  match node with
  | .node id ty body schema dist inputs =>
    match ty with
    | PlanNodeType.BatchExchange =>
      match inputs with
      | [] => none
      | input0 :: _rest =>
        let child_exchange_info := dist.to_prost parallelism
        match newStage wc qid input0 (some parallelism) (some child_exchange_info) st with
        | none => none
        | some (child_stage, st') =>
          some (.mk id ty body schema [] (some child_stage.id), [child_stage], st')
    | _ =>
      match visitInputs wc qid parallelism inputs st with
      | none => none
      | some (childEpns, stages, st') =>
        some (.mk id ty body schema childEpns none, stages, st')
termination_by (sizeOf node, 0)
decreasing_by
  all_goals simp_wf
  all_goals apply Prod.Lex.left
  all_goals simp_arith

/-- The `for child in node.inputs()` loop of `visit_node`: visits the
inputs left to right, threading the state, collecting the children
`ExecutionPlanNode`s and the pushed child stages in order. -/
def visitInputs (wc : Nat) (qid : String) (parallelism : Nat) (inputs : List PlanRef)
    (st : FragState) : Option (List ExecutionPlanNode × List QueryStage × FragState) :=
  match inputs with
  | [] => some ([], [], st)
  | c :: rest =>
    match visitNode wc qid parallelism c st with
    | none => none
    | some (epn, s1, st1) =>
      match visitInputs wc qid parallelism rest st1 with
      | none => none
      | some (epns, s2, st2) => some (epn :: epns, s1 ++ s2, st2)
termination_by (sizeOf inputs, 0)
decreasing_by
  all_goals simp_wf
  all_goals apply Prod.Lex.left
  all_goals simp_arith

/-- Model of `BatchPlanFragmenter::new_stage` followed by `QueryStageBuilder::finish`. -/
def newStage (wc : Nat) (qid : String) (root : PlanRef)
    (parent_parallelism : Option Nat) (exchange_info : Option ExchangeInfo)
    (st : FragState) : Option (QueryStage × FragState) :=
  let next_stage_id := st.next
  let st1 : FragState := { st with next := st.next + 1 }
  let parallelism := match parent_parallelism with
    | some _ => wc
    | none => 1
  let einfo := match exchange_info with
    | some info => info
    | none => Distribution.Single.to_prost 1
  match visitNode wc qid parallelism root st1 with
  | none => none
  | some (rootEpn, children_stages, st2) =>
    let stage : QueryStage :=
      { query_id := qid, id := next_stage_id, root := rootEpn
        exchange_info := einfo, parallelism := parallelism }
    match linkAll (addNode st2 stage) next_stage_id children_stages with
    | none => none
    | some st3 => some (stage, st3)
termination_by (sizeOf root, 1)
decreasing_by
  all_goals apply Prod.Lex.right
  all_goals simp_arith

end

/-! ### `StageGraph`, `Query`, `split` -/

structure StageGraph where
  root_stage_id : Nat
  stages : List (Nat × QueryStage)
  child_edges : List (Nat × List Nat)
  parent_edges : List (Nat × List Nat)
deriving Repr

structure Query where
  query_id : String
  stage_graph : StageGraph
deriving Repr

/-- Model of `QueryId::default`: a fresh random UUID rendered as a string; the
randomness is the explicit `entropy` argument. -/
def freshQueryId (entropy : Nat) : String :=
  Nat.repr entropy

/-- Model of `BatchPlanFragmenter::split` on a fresh fragmenter
(`next_stage_id = 0`, empty builder) with query id `qid`:
`new_stage(plan, None, None)` then `StageGraphBuilder::build(root.id)`. -/
def split (wc : Nat) (qid : String) (plan : PlanRef) : Option Query :=
  match newStage wc qid plan none none ⟨0, [], [], []⟩ with
  | none => none
  | some (root_stage, st) =>
    some ⟨qid, ⟨root_stage.id, st.stages, st.child_edges, st.parent_edges⟩⟩

/-- Model of `BatchPlanFragmenter::new` + `split`: the fragmenter draws its query
id from the entropy source at construction time. -/
def splitRun (wc entropy : Nat) (plan : PlanRef) : Option Query :=
  split wc (freshQueryId entropy) plan

/-! ### `StageGraph::stage_ids_by_topo_order` -/

/-- Keys of an association-list map. -/
def keysOf {α : Type} (m : List (Nat × α)) : List Nat :=
  m.map Prod.fst

theorem mem_keysOf_of_mapGet {α : Type} {m : List (Nat × α)} {k : Nat} {v : α}
    (h : mapGet m k = some v) : k ∈ keysOf m := by
  unfold mapGet at h
  rcases Option.map_eq_some'.mp h with ⟨⟨k', v'⟩, hf, hv⟩
  have hmem := List.mem_of_find?_eq_some hf
  have hk : k' = k := by
    have := List.find?_some hf
    simpa using this
  subst hk
  exact List.mem_map_of_mem Prod.fst hmem

/-- Helper for the termination of the DFS loop: visiting a fresh key
shrinks the set of unvisited keys. -/
theorem length_filter_anti {l : List Nat} {p q : Nat → Bool}
    (himp : ∀ a, q a = true → p a = true) :
    (l.filter q).length ≤ (l.filter p).length := by
  induction l with
  | nil => simp
  | cons a tl ih =>
    cases hq : q a with
    | true =>
      have hpa := himp a hq
      simp [List.filter_cons, hq, hpa]
      exact ih
    | false =>
      cases hp : p a with
      | true =>
        simp [List.filter_cons, hq, hp]
        exact Nat.le_succ_of_le ih
      | false =>
        simp [List.filter_cons, hq, hp]
        exact ih

theorem length_filter_strict {l : List Nat} {p q : Nat → Bool}
    (himp : ∀ a, q a = true → p a = true) {x : Nat} (hx : x ∈ l)
    (hpx : p x = true) (hqx : q x = false) :
    (l.filter q).length < (l.filter p).length := by
  induction l with
  | nil => cases hx
  | cons a tl ih =>
    by_cases hax : a = x
    · subst hax
      simp [List.filter_cons, hqx, hpx]
      exact Nat.lt_succ_of_le (length_filter_anti himp)
    · have hmem : x ∈ tl := by
        rcases List.mem_cons.mp hx with h1 | h1
        · exact absurd h1.symm hax
        · exact h1
      cases hq : q a with
      | true =>
        have hpa := himp a hq
        simp [List.filter_cons, hq, hpa]
        exact ih hmem
      | false =>
        cases hp : p a with
        | true =>
          simp [List.filter_cons, hq, hp]
          exact Nat.lt_succ_of_le (Nat.le_of_lt (ih hmem))
        | false =>
          simp [List.filter_cons, hq, hp]
          exact ih hmem

/-- The `while let Some(s) = stack.pop()` loop of
`StageGraph::stage_ids_by_topo_order`.  The stack is a `Vec` popped from
the end, modelled with the list head as the top; `stack.extend(children)`
therefore pushes `children.reverse` in front.  Indexing
`self.child_edges[&s]` on a missing key is a panic, modelled as `none`. -/
def topoLoop (ce : List (Nat × List Nat)) (stack ret existing : List Nat) :
    Option (List Nat) :=
  match stack with
  | [] => some ret
  | s :: stack' =>
    if s ∈ existing then
      topoLoop ce stack' ret existing
    else
      match h : mapGet ce s with
      | none => none
      | some cs => topoLoop ce (cs.reverse ++ stack') (ret ++ [s]) (existing ++ [s])
termination_by
  (((keysOf ce).filter (fun k => decide (k ∉ existing))).length, stack.length)
decreasing_by
  · apply Prod.Lex.right
    simp
  · apply Prod.Lex.left
    apply length_filter_strict (x := s)
    · intro a ha
      simp at ha ⊢
      exact ha.1
    · exact mem_keysOf_of_mapGet h
    · simpa using (by assumption : ¬ s ∈ existing)
    · simp

/-- Model of `StageGraph::stage_ids_by_topo_order`: DFS from the root along
`child_edges`, collecting ids in visit order, then reversed
(`ret.into_iter().rev()`).  The `HashSet` iteration order behind
`stack.extend(..)` is unspecified (per-instance random seed) in the source;
this model fixes it to the stored-list order, so only order-insensitive
properties of the emitted sequence transfer to the program. -/
def stage_ids_by_topo_order (g : StageGraph) : Option (List Nat) :=
  (topoLoop g.child_edges [g.root_stage_id] [] []).map List.reverse

/-! ### Plan measures -/

mutual

/-- Total number of exchange operators in the input plan (all subtrees). -/
def countExchanges : PlanRef → Nat
  | .node _ ty _ _ _ inputs =>
    (if ty = PlanNodeType.BatchExchange then 1 else 0) + countExchangesList inputs

def countExchangesList : List PlanRef → Nat
  | [] => 0
  | i :: rest => countExchanges i + countExchangesList rest

end

mutual

/-- Every exchange operator in the plan has exactly one input (the
spec's well-formedness assumption on plans). -/
def unaryEx : PlanRef → Bool
  | .node _ ty _ _ _ inputs =>
    (decide (ty ≠ PlanNodeType.BatchExchange) || decide (inputs.length = 1))
      && unaryExList inputs

def unaryExList : List PlanRef → Bool
  | [] => true
  | i :: rest => unaryEx i && unaryExList rest

end

mutual

/-- All nodes of an `ExecutionPlanNode` tree (the node itself included). -/
def epnNodes : ExecutionPlanNode → List ExecutionPlanNode
  | .mk id ty body schema children sid =>
    .mk id ty body schema children sid :: epnNodesList children

def epnNodesList : List ExecutionPlanNode → List ExecutionPlanNode
  | [] => []
  | e :: rest => epnNodes e ++ epnNodesList rest

end

/-- Reachability along `child_edges`. -/
def Reach (ce : List (Nat × List Nat)) (a b : Nat) : Prop :=
  Relation.ReflTransGen (fun x y => edgeMem ce x y) a b

/-! ### Association-list map lemmas -/

theorem mapGet_insert_self {α : Type} (m : List (Nat × α)) (k : Nat) (v : α) :
    mapGet (mapInsert m k v) k = some v := by
  simp [mapGet, mapInsert, List.find?]

theorem mapGet_insert_ne {α : Type} (m : List (Nat × α)) (k k' : Nat) (v : α)
    (h : k' ≠ k) : mapGet (mapInsert m k v) k' = mapGet m k' := by
  unfold mapGet mapInsert
  have hne : (k == k') = false := by
    simp
    exact fun he => h he.symm
  simp only [List.find?, hne]
  induction m with
  | nil => simp
  | cons a tl ih =>
    by_cases hk : a.1 = k
    · have h1 : (¬ a.1 == k) = false := by simp [hk]
      have h2 : (a.1 == k') = false := by simp [hk]; exact fun he => h he.symm
      simp only [List.filter_cons, h1, List.find?, h2, Bool.false_eq_true, if_false]
      exact ih
    · have h1 : (¬ a.1 == k) = true := by simp [hk]
      simp only [List.filter_cons, h1, List.find?, if_true]
      by_cases h2 : a.1 = k'
      · have : (a.1 == k') = true := by simp [h2]
        simp [this]
      · have : (a.1 == k') = false := by simp [h2]
        simp only [this, Bool.false_eq_true, if_false]
        exact ih

theorem mapGet_eq_none_iff {α : Type} (m : List (Nat × α)) (k : Nat) :
    mapGet m k = none ↔ ∀ p ∈ m, p.1 ≠ k := by
  unfold mapGet
  constructor
  · intro h p hp hk
    rcases Option.map_eq_none'.mp h with hf
    have := List.find?_eq_none.mp hf p hp
    simp [hk] at this
  · intro h
    apply Option.map_eq_none'.mpr
    apply List.find?_eq_none.mpr
    intro p hp
    simp [h p hp]

theorem hasKey_insert {α : Type} (m : List (Nat × α)) (k k' : Nat) (v : α) :
    (mapGet (mapInsert m k v) k').isSome ↔ k' = k ∨ (mapGet m k').isSome := by
  by_cases h : k' = k
  · subst h
    simp [mapGet_insert_self]
  · rw [mapGet_insert_ne m k k' v h]
    simp [h]

theorem length_insert_fresh {α : Type} (m : List (Nat × α)) (k : Nat) (v : α)
    (h : mapGet m k = none) : (mapInsert m k v).length = m.length + 1 := by
  unfold mapInsert
  have : m.filter (fun p => ¬ p.1 == k) = m := by
    apply List.filter_eq_self.mpr
    intro p hp
    have := (mapGet_eq_none_iff m k).mp h p hp
    simp [this]
  rw [this]
  simp

theorem keysOf_insert_nodup {α : Type} (m : List (Nat × α)) (k : Nat) (v : α)
    (h : (keysOf m).Nodup) : (keysOf (mapInsert m k v)).Nodup := by
  unfold keysOf mapInsert
  simp only [List.map_cons, List.nodup_cons]
  constructor
  · intro hmem
    rcases List.mem_map.mp hmem with ⟨p, hp, hk⟩
    have := List.of_mem_filter hp
    simp [hk] at this
  · have : List.Sublist ((m.filter (fun p => ¬ p.1 == k)).map Prod.fst)
        (m.map Prod.fst) :=
      List.Sublist.map Prod.fst (List.filter_sublist m)
    exact List.Nodup.sublist this h

theorem mem_setInsert (s : List Nat) (x y : Nat) :
    y ∈ setInsert s x ↔ y = x ∨ y ∈ s := by
  unfold setInsert
  by_cases h : x ∈ s
  · simp [h]
    intro hy
    subst hy
    exact h
  · simp [h, or_comm]

theorem setInsert_self_mem (s : List Nat) (x : Nat) : x ∈ setInsert s x := by
  simp [mem_setInsert]

/-! ### Builder-operation characterizations -/

theorem edgeMem_of_mapGet {m : List (Nat × List Nat)} {p c : Nat} {s : List Nat}
    (h : mapGet m p = some s) : (edgeMem m p c ↔ c ∈ s) := by
  unfold edgeMem
  constructor
  · rintro ⟨s', hs', hc⟩
    rw [h] at hs'
    cases hs'
    exact hc
  · intro hc
    exact ⟨s, h, hc⟩

theorem edgeMem_none {m : List (Nat × List Nat)} {p c : Nat}
    (h : mapGet m p = none) : ¬ edgeMem m p c := by
  rintro ⟨s', hs', _⟩
  rw [h] at hs'
  cases hs'

/-- Full characterization of a successful `link_to_child`. -/
theorem linkToChild_spec (st : FragState) (pid cid : Nat)
    (h1 : (mapGet st.child_edges pid).isSome)
    (h2 : (mapGet st.parent_edges cid).isSome) :
    ∃ st', linkToChild st pid cid = some st' ∧
      st'.next = st.next ∧
      st'.stages = st.stages ∧
      (∀ kk, kk ≠ pid → mapGet st'.child_edges kk = mapGet st.child_edges kk) ∧
      (∀ kk, kk ≠ cid → mapGet st'.parent_edges kk = mapGet st.parent_edges kk) ∧
      (∀ kk, (mapGet st'.child_edges kk).isSome ↔ (mapGet st.child_edges kk).isSome) ∧
      (∀ kk, (mapGet st'.parent_edges kk).isSome ↔ (mapGet st.parent_edges kk).isSome) ∧
      (∀ p c, edgeMem st'.child_edges p c ↔
        (edgeMem st.child_edges p c ∨ (p = pid ∧ c = cid))) ∧
      (∀ c p, edgeMem st'.parent_edges c p ↔
        (edgeMem st.parent_edges c p ∨ (p = pid ∧ c = cid))) ∧
      ((keysOf st.child_edges).Nodup → (keysOf st'.child_edges).Nodup) ∧
      ((keysOf st.parent_edges).Nodup → (keysOf st'.parent_edges).Nodup) := by
  rcases hcs : mapGet st.child_edges pid with _ | cs0
  · rw [hcs] at h1; cases h1
  rcases hps : mapGet st.parent_edges cid with _ | ps0
  · rw [hps] at h2; cases h2
  refine ⟨{ st with
      child_edges := mapInsert st.child_edges pid (setInsert cs0 cid)
      parent_edges := mapInsert st.parent_edges cid (setInsert ps0 pid) },
    by simp [linkToChild, hcs, hps], rfl, rfl, ?_, ?_, ?_, ?_, ?_, ?_, ?_, ?_⟩
  · intro kk hk
    exact mapGet_insert_ne _ _ _ _ hk
  · intro kk hk
    exact mapGet_insert_ne _ _ _ _ hk
  · intro kk
    rw [hasKey_insert]
    constructor
    · rintro (rfl | h)
      · simp [hcs]
      · exact h
    · intro h
      exact Or.inr h
  · intro kk
    rw [hasKey_insert]
    constructor
    · rintro (rfl | h)
      · simp [hps]
      · exact h
    · intro h
      exact Or.inr h
  · intro p c
    by_cases hp : p = pid
    · subst hp
      rw [edgeMem_of_mapGet (mapGet_insert_self _ _ _), mem_setInsert,
        edgeMem_of_mapGet hcs]
      tauto
    · rw [show edgeMem (mapInsert st.child_edges pid (setInsert cs0 cid)) p c ↔
          edgeMem st.child_edges p c from by
        unfold edgeMem; rw [mapGet_insert_ne _ _ _ _ hp]]
      tauto
  · intro c p
    by_cases hc : c = cid
    · subst hc
      rw [edgeMem_of_mapGet (mapGet_insert_self _ _ _), mem_setInsert,
        edgeMem_of_mapGet hps]
      tauto
    · rw [show edgeMem (mapInsert st.parent_edges cid (setInsert ps0 pid)) c p ↔
          edgeMem st.parent_edges c p from by
        unfold edgeMem; rw [mapGet_insert_ne _ _ _ _ hc]]
      tauto
  · exact keysOf_insert_nodup _ _ _
  · exact keysOf_insert_nodup _ _ _

/-- Full characterization of a successful `linkAll` fold. -/
theorem linkAll_spec (pid : Nat) :
    ∀ (cs : List QueryStage) (st : FragState),
    (mapGet st.child_edges pid).isSome →
    (∀ c ∈ cs, (mapGet st.parent_edges c.id).isSome) →
    ∃ st', linkAll st pid cs = some st' ∧
      st'.next = st.next ∧
      st'.stages = st.stages ∧
      (∀ kk, kk ≠ pid → mapGet st'.child_edges kk = mapGet st.child_edges kk) ∧
      (∀ kk, (∀ c ∈ cs, kk ≠ c.id) →
        mapGet st'.parent_edges kk = mapGet st.parent_edges kk) ∧
      (∀ kk, (mapGet st'.child_edges kk).isSome ↔ (mapGet st.child_edges kk).isSome) ∧
      (∀ kk, (mapGet st'.parent_edges kk).isSome ↔ (mapGet st.parent_edges kk).isSome) ∧
      (∀ p c, edgeMem st'.child_edges p c ↔
        (edgeMem st.child_edges p c ∨ (p = pid ∧ ∃ cst ∈ cs, c = cst.id))) ∧
      (∀ c p, edgeMem st'.parent_edges c p ↔
        (edgeMem st.parent_edges c p ∨ (p = pid ∧ ∃ cst ∈ cs, c = cst.id))) ∧
      ((keysOf st.child_edges).Nodup → (keysOf st'.child_edges).Nodup) ∧
      ((keysOf st.parent_edges).Nodup → (keysOf st'.parent_edges).Nodup) := by
  intro cs
  induction cs with
  | nil =>
    intro st h1 _h2
    refine ⟨st, rfl, rfl, rfl, fun _ _ => rfl, fun _ _ => rfl, fun _ => Iff.rfl,
      fun _ => Iff.rfl, ?_, ?_, id, id⟩
    · intro p c
      simp
    · intro c p
      simp
  | cons c0 rest ih =>
    intro st h1 h2
    obtain ⟨stA, hlink, hnext, hstages, hceNe, hpeNe, hceKey, hpeKey, hceMem,
      hpeMem, hndC, hndP⟩ :=
      linkToChild_spec st pid c0.id h1 (h2 c0 (by simp))
    obtain ⟨st', hrest, hnext', hstages', hceNe', hpeNe', hceKey', hpeKey',
      hceMem', hpeMem', hndC', hndP'⟩ :=
      ih stA ((hceKey pid).mpr h1)
        (fun c hc => (hpeKey c.id).mpr (h2 c (by simp [hc])))
    refine ⟨st', ?_, by rw [hnext', hnext], by rw [hstages', hstages], ?_, ?_,
      ?_, ?_, ?_, ?_, ?_, ?_⟩
    · show linkAll st pid (c0 :: rest) = some st'
      unfold linkAll at hrest ⊢
      simp only [List.foldlM_cons, hlink]
      exact hrest
    · intro kk hk
      rw [hceNe' kk hk, hceNe kk hk]
    · intro kk hk
      rw [hpeNe' kk (fun c hc => hk c (by simp [hc])),
        hpeNe kk (hk c0 (by simp))]
    · intro kk
      rw [hceKey' kk, hceKey kk]
    · intro kk
      rw [hpeKey' kk, hpeKey kk]
    · intro p c
      rw [hceMem' p c, hceMem p c]
      constructor
      · rintro ((h | ⟨rfl, rfl⟩) | ⟨rfl, cst, hcst, rfl⟩)
        · exact Or.inl h
        · exact Or.inr ⟨rfl, c0, by simp⟩
        · exact Or.inr ⟨rfl, cst, by simp [hcst]⟩
      · rintro (h | ⟨rfl, cst, hcst, rfl⟩)
        · exact Or.inl (Or.inl h)
        · rcases List.mem_cons.mp hcst with rfl | hmem
          · exact Or.inl (Or.inr ⟨rfl, rfl⟩)
          · exact Or.inr ⟨rfl, cst, hmem, rfl⟩
    · intro c p
      rw [hpeMem' c p, hpeMem c p]
      constructor
      · rintro ((h | ⟨rfl, rfl⟩) | ⟨rfl, cst, hcst, rfl⟩)
        · exact Or.inl h
        · exact Or.inr ⟨rfl, c0, by simp⟩
        · exact Or.inr ⟨rfl, cst, by simp [hcst]⟩
      · rintro (h | ⟨rfl, cst, hcst, rfl⟩)
        · exact Or.inl (Or.inl h)
        · rcases List.mem_cons.mp hcst with rfl | hmem
          · exact Or.inl (Or.inr ⟨rfl, rfl⟩)
          · exact Or.inr ⟨rfl, cst, hmem, rfl⟩
    · exact fun h => hndC' (hndC h)
    · exact fun h => hndP' (hndP h)

/-- Characterization of `add_node` with a fresh key. -/
theorem addNode_spec (st : FragState) (stage : QueryStage)
    (hfresh : mapGet st.stages stage.id = none)
    (hfreshC : mapGet st.child_edges stage.id = none)
    (hfreshP : mapGet st.parent_edges stage.id = none) :
    (addNode st stage).next = st.next ∧
    mapGet (addNode st stage).stages stage.id = some stage ∧
    (∀ kk, kk ≠ stage.id →
      mapGet (addNode st stage).stages kk = mapGet st.stages kk ∧
      mapGet (addNode st stage).child_edges kk = mapGet st.child_edges kk ∧
      mapGet (addNode st stage).parent_edges kk = mapGet st.parent_edges kk) ∧
    mapGet (addNode st stage).child_edges stage.id = some [] ∧
    mapGet (addNode st stage).parent_edges stage.id = some [] ∧
    (∀ p c, edgeMem (addNode st stage).child_edges p c ↔ edgeMem st.child_edges p c) ∧
    (∀ c p, edgeMem (addNode st stage).parent_edges c p ↔ edgeMem st.parent_edges c p) ∧
    (addNode st stage).stages.length = st.stages.length + 1 := by
  refine ⟨rfl, mapGet_insert_self _ _ _, ?_, mapGet_insert_self _ _ _,
    mapGet_insert_self _ _ _, ?_, ?_, length_insert_fresh _ _ _ hfresh⟩
  · intro kk hk
    exact ⟨mapGet_insert_ne _ _ _ _ hk, mapGet_insert_ne _ _ _ _ hk,
      mapGet_insert_ne _ _ _ _ hk⟩
  · intro p c
    show edgeMem (mapInsert st.child_edges stage.id []) p c ↔ _
    by_cases hp : p = stage.id
    · subst hp
      rw [edgeMem_of_mapGet (mapGet_insert_self _ _ _)]
      simp [edgeMem_none hfreshC]
    · unfold edgeMem
      rw [mapGet_insert_ne _ _ _ _ hp]
  · intro c p
    show edgeMem (mapInsert st.parent_edges stage.id []) c p ↔ _
    by_cases hc : c = stage.id
    · subst hc
      rw [edgeMem_of_mapGet (mapGet_insert_self _ _ _)]
      simp [edgeMem_none hfreshP]
    · unfold edgeMem
      rw [mapGet_insert_ne _ _ _ _ hc]

/-! ### The build invariant -/

/-- Invariant of the fragmenter state, preserved by every stage
construction. -/
structure StInv (qid : String) (st : FragState) : Prop where
  nodupS : (keysOf st.stages).Nodup
  nodupC : (keysOf st.child_edges).Nodup
  nodupP : (keysOf st.parent_edges).Nodup
  domC : ∀ k, (mapGet st.stages k).isSome ↔ (mapGet st.child_edges k).isSome
  domP : ∀ k, (mapGet st.stages k).isSome ↔ (mapGet st.parent_edges k).isSome
  bound : ∀ k, (mapGet st.stages k).isSome → k < st.next
  sym : ∀ p c, edgeMem st.child_edges p c ↔ edgeMem st.parent_edges c p
  edgeLT : ∀ p c, edgeMem st.child_edges p c → p < c
  edgeDom : ∀ p c, edgeMem st.child_edges p c →
    (mapGet st.stages p).isSome ∧ (mapGet st.stages c).isSome
  uniqPar : ∀ p1 p2 c, edgeMem st.child_edges p1 c → edgeMem st.child_edges p2 c →
    p1 = p2
  stVals : ∀ k s, mapGet st.stages k = some s → s.id = k ∧ s.query_id = qid
  stEpn : ∀ k s, mapGet st.stages k = some s → ∀ e ∈ epnNodes s.root,
    (e.plan_node_type = PlanNodeType.BatchExchange →
      e.children = [] ∧ ∃ c, e.stage_id = some c ∧ edgeMem st.child_edges k c) ∧
    (e.plan_node_type ≠ PlanNodeType.BatchExchange → e.stage_id = none)

/-- The invariant holds for the empty initial state. -/
theorem StInv.initial (qid : String) : StInv qid ⟨0, [], [], []⟩ := by
  refine ⟨List.nodup_nil, List.nodup_nil, List.nodup_nil, ?_, ?_, ?_, ?_, ?_, ?_,
    ?_, ?_, ?_⟩ <;>
    simp [mapGet, edgeMem, keysOf]

/-- Common postcondition of one visit step (`st` before, `st'` after,
`cs` the child stages pushed during the step). -/
structure StepPost (qid : String) (st st' : FragState) (cs : List QueryStage) :
    Prop where
  mono : st.next ≤ st'.next
  inv : StInv qid st'
  frameS : ∀ k, k < st.next → mapGet st'.stages k = mapGet st.stages k
  frameC : ∀ k, k < st.next → mapGet st'.child_edges k = mapGet st.child_edges k
  frameP : ∀ k, k < st.next → mapGet st'.parent_edges k = mapGet st.parent_edges k
  newKeys : ∀ k, st.next ≤ k → k < st'.next → (mapGet st'.stages k).isSome
  oldKeys : ∀ k, (mapGet st'.stages k).isSome →
    (mapGet st.stages k).isSome ∨ (st.next ≤ k ∧ k < st'.next)
  lenS : st'.stages.length = st.stages.length + (st'.next - st.next)
  csStored : ∀ c ∈ cs, mapGet st'.stages c.id = some c ∧ st.next ≤ c.id ∧
    c.id < st'.next
  csFree : ∀ c ∈ cs, mapGet st'.parent_edges c.id = some []
  reach : ∀ k, (mapGet st'.stages k).isSome →
    (mapGet st.stages k).isSome ∨ ∃ c ∈ cs, Reach st'.child_edges c.id k

/-- Edges present in an intermediate state persist in any later state that
frames its keys. -/
theorem edge_mono {qid : String} {st1 st' : FragState} (inv1 : StInv qid st1)
    (fr : ∀ k, k < st1.next → mapGet st'.child_edges k = mapGet st1.child_edges k) :
    ∀ p c, edgeMem st1.child_edges p c → edgeMem st'.child_edges p c := by
  intro p c h
  have hp := (inv1.edgeDom p c h).1
  have hlt := inv1.bound p hp
  unfold edgeMem at h ⊢
  rw [fr p hlt]
  exact h

theorem reach_mono {qid : String} {st1 st' : FragState} (inv1 : StInv qid st1)
    (fr : ∀ k, k < st1.next → mapGet st'.child_edges k = mapGet st1.child_edges k) :
    ∀ a b, Reach st1.child_edges a b → Reach st'.child_edges a b := by
  intro a b h
  exact Relation.ReflTransGen.mono (edge_mono inv1 fr) h

/-- Two consecutive steps compose. -/
theorem StepPost.comp {qid : String} {st st1 st' : FragState}
    {cs1 cs2 : List QueryStage} (h1 : StepPost qid st st1 cs1)
    (h2 : StepPost qid st1 st' cs2) : StepPost qid st st' (cs1 ++ cs2) := by
  refine ⟨Nat.le_trans h1.mono h2.mono, h2.inv, ?_, ?_, ?_, ?_, ?_, ?_, ?_, ?_, ?_⟩
  · intro k hk
    rw [h2.frameS k (Nat.lt_of_lt_of_le hk h1.mono), h1.frameS k hk]
  · intro k hk
    rw [h2.frameC k (Nat.lt_of_lt_of_le hk h1.mono), h1.frameC k hk]
  · intro k hk
    rw [h2.frameP k (Nat.lt_of_lt_of_le hk h1.mono), h1.frameP k hk]
  · intro k hk1 hk2
    by_cases h : k < st1.next
    · rw [h2.frameS k h]
      exact h1.newKeys k hk1 h
    · exact h2.newKeys k (Nat.le_of_not_lt h) hk2
  · intro k hk
    rcases h2.oldKeys k hk with h | ⟨ha, hb⟩
    · rcases h1.oldKeys k h with h' | ⟨ha', hb'⟩
      · exact Or.inl h'
      · exact Or.inr ⟨ha', Nat.lt_of_lt_of_le hb' h2.mono⟩
    · exact Or.inr ⟨Nat.le_trans h1.mono ha, hb⟩
  · have e1 := h1.lenS
    have e2 := h2.lenS
    have m1 := h1.mono
    have m2 := h2.mono
    omega
  · intro c hc
    rcases List.mem_append.mp hc with hc1 | hc2
    · obtain ⟨hst, ha, hb⟩ := h1.csStored c hc1
      refine ⟨?_, ha, Nat.lt_of_lt_of_le hb h2.mono⟩
      rw [h2.frameS c.id hb]
      exact hst
    · obtain ⟨hst, ha, hb⟩ := h2.csStored c hc2
      exact ⟨hst, Nat.le_trans h1.mono ha, hb⟩
  · intro c hc
    rcases List.mem_append.mp hc with hc1 | hc2
    · obtain ⟨hst, ha, hb⟩ := h1.csStored c hc1
      rw [h2.frameP c.id hb]
      exact h1.csFree c hc1
    · exact h2.csFree c hc2
  · intro k hk
    rcases h2.reach k hk with h | ⟨c, hc, hr⟩
    · rcases h1.reach k h with h' | ⟨c, hc, hr⟩
      · exact Or.inl h'
      · exact Or.inr ⟨c, List.mem_append.mpr (Or.inl hc),
          reach_mono h1.inv h2.frameC c.id k hr⟩
    · exact Or.inr ⟨c, List.mem_append.mpr (Or.inr hc), hr⟩

/-- The identity step. -/
theorem StepPost.refl {qid : String} {st : FragState} (hinv : StInv qid st) :
    StepPost qid st st [] := by
  refine ⟨Nat.le_refl _, hinv, fun _ _ => rfl, fun _ _ => rfl, fun _ _ => rfl,
    ?_, ?_, by omega, ?_, ?_, ?_⟩
  · intro k h1 h2
    omega
  · intro k hk
    exact Or.inl hk
  · intro c hc
    cases hc
  · intro c hc
    cases hc
  · intro k hk
    exact Or.inl hk

/-- Exchange-node discipline for the execution-plan nodes produced while
building one stage: exchange nodes are leaves pointing at one of the
pending child stages; other nodes carry no stage id. -/
def EpnOk (cs : List QueryStage) (l : List ExecutionPlanNode) : Prop :=
  ∀ e ∈ l,
    (e.plan_node_type = PlanNodeType.BatchExchange →
      e.children = [] ∧ ∃ c ∈ cs, e.stage_id = some c.id) ∧
    (e.plan_node_type ≠ PlanNodeType.BatchExchange → e.stage_id = none)

/-- Stages added during a visit step run at the worker-count parallelism. -/
def ParWc (wc : Nat) (st st' : FragState) : Prop :=
  ∀ k s, mapGet st'.stages k = some s →
    mapGet st.stages k = some s ∨ s.parallelism = wc

/-- Induction statement for `visitNode`. -/
def PNode (qid : String) (wc : Nat) (node : PlanRef) : Prop :=
  ∀ par st epn cs st', StInv qid st →
    visitNode wc qid par node st = some (epn, cs, st') →
    StepPost qid st st' cs ∧ ParWc wc st st' ∧ EpnOk cs (epnNodes epn) ∧
    (unaryEx node = true → st'.next = st.next + countExchanges node)

/-- Induction statement for `visitInputs`. -/
def PList (qid : String) (wc : Nat) (l : List PlanRef) : Prop :=
  ∀ par st epns css st', StInv qid st →
    visitInputs wc qid par l st = some (epns, css, st') →
    StepPost qid st st' css ∧ ParWc wc st st' ∧ EpnOk css (epnNodesList epns) ∧
    (unaryExList l = true → st'.next = st.next + countExchangesList l)

/-- What a successful `new_stage` + `finish` guarantees. -/
structure NewStagePost (qid : String) (wc : Nat) (node : PlanRef) (pp : Option Nat)
    (ei : Option ExchangeInfo) (st st' : FragState) (stage : QueryStage) : Prop where
  step : StepPost qid st st' [stage]
  parW : ∀ k s, mapGet st'.stages k = some s →
    mapGet st.stages k = some s ∨ s.parallelism = wc ∨ s = stage
  stageId : stage.id = st.next
  stageQid : stage.query_id = qid
  stagePar : stage.parallelism = (match pp with | some _ => wc | none => 1)
  stageEinfo : stage.exchange_info =
    (match ei with | some i => i | none => Distribution.Single.to_prost 1)
  monoS : st.next < st'.next
  cntS : unaryEx node = true → st'.next = st.next + 1 + countExchanges node

/-- Bumping `next_stage_id` preserves the invariant. -/
theorem StInv.bump {qid : String} {st : FragState} (h : StInv qid st) {n : Nat}
    (hn : st.next ≤ n) : StInv qid { st with next := n } := by
  refine ⟨h.nodupS, h.nodupC, h.nodupP, h.domC, h.domP, ?_, h.sym, h.edgeLT,
    h.edgeDom, h.uniqPar, h.stVals, h.stEpn⟩
  intro k hk
  exact Nat.lt_of_lt_of_le (h.bound k hk) hn

theorem newStage_spec {qid : String} {wc : Nat} {node : PlanRef}
    (hP : PNode qid wc node) :
    ∀ pp ei st stage st', StInv qid st →
    newStage wc qid node pp ei st = some (stage, st') →
    NewStagePost qid wc node pp ei st st' stage := by
  intro pp ei st stage st' hinv hsome
  unfold newStage at hsome
  simp only [] at hsome
  split at hsome
  · exact absurd hsome (by simp)
  rename_i epn cs st2 hv
  split at hsome
  · exact absurd hsome (by simp)
  rename_i stM hlinkEq
  injection hsome with hpair
  injection hpair with hstage hstEq
  subst stM
  -- hstage : literal = stage
  rw [hstage] at hlinkEq
  have hsid : stage.id = st.next := by rw [← hstage]
  have hsqid : stage.query_id = qid := by rw [← hstage]
  have hsroot : stage.root = epn := by rw [← hstage]
  have hinv1 : StInv qid { st with next := st.next + 1 } :=
    hinv.bump (Nat.le_succ _)
  obtain ⟨step, parw, epnok, cnt⟩ := hP _ _ _ _ _ hinv1 hv
  have hnextEq : ({ st with next := st.next + 1 } : FragState).next = st.next + 1 := rfl
  have hb2 : st.next + 1 ≤ st2.next := by
    have := step.mono
    rw [hnextEq] at this
    exact this
  -- the freshly allocated id is not a key of st2
  have hfresh : mapGet st2.stages st.next = none := by
    rcases hh : mapGet st2.stages st.next with _ | s
    · rfl
    · exfalso
      rcases step.oldKeys st.next (by rw [hh]; rfl) with hk | ⟨hk, _⟩
      · have hlt := hinv.bound st.next hk
        omega
      · rw [hnextEq] at hk
        omega
  have hfreshC : mapGet st2.child_edges st.next = none := by
    rcases hh : mapGet st2.child_edges st.next with _ | s
    · rfl
    · have := (step.inv.domC st.next).mpr (by rw [hh]; rfl)
      rw [hfresh] at this
      cases this
  have hfreshP : mapGet st2.parent_edges st.next = none := by
    rcases hh : mapGet st2.parent_edges st.next with _ | s
    · rfl
    · have := (step.inv.domP st.next).mpr (by rw [hh]; rfl)
      rw [hfresh] at this
      cases this
  obtain ⟨hAnext, hAself, hAne, hAceSelf, hApeSelf, hAce, hApe, hAlen⟩ :=
    addNode_spec st2 stage (hsid ▸ hfresh) (hsid ▸ hfreshC) (hsid ▸ hfreshP)
  have hcsne : ∀ c ∈ cs, c.id ≠ st.next := by
    intro c hc
    obtain ⟨_, hge, _⟩ := step.csStored c hc
    rw [hnextEq] at hge
    omega
  obtain ⟨st3', hlink, hLnext, hLstages, hLceNe, hLpeNe, hLceKey, hLpeKey,
    hLceMem, hLpeMem, hLndC, hLndP⟩ :=
    linkAll_spec stage.id cs (addNode st2 stage)
      (by rw [hAceSelf]; rfl)
      (by
        intro c hc
        rw [(hAne c.id (hsid ▸ hcsne c hc)).2.2]
        rw [step.csFree c hc]
        rfl)
  have hstEq3 : st3' = st' := by
    rw [hsid] at hlink
    rw [hlink] at hlinkEq
    injection hlinkEq
  subst st3'
  -- abbreviations
  have hAkey : ∀ kk, (mapGet (addNode st2 stage).stages kk).isSome ↔
      (kk = st.next ∨ (mapGet st2.stages kk).isSome) := by
    intro kk
    show (mapGet (mapInsert st2.stages stage.id stage) kk).isSome ↔ _
    rw [hasKey_insert, hsid]
  have hceMem : ∀ p c, edgeMem st'.child_edges p c ↔
      (edgeMem st2.child_edges p c ∨ (p = st.next ∧ ∃ cst ∈ cs, c = cst.id)) := by
    intro p c
    rw [hLceMem p c, hAce p c, hsid]
  have hpeMem : ∀ c p, edgeMem st'.parent_edges c p ↔
      (edgeMem st2.parent_edges c p ∨ (p = st.next ∧ ∃ cst ∈ cs, c = cst.id)) := by
    intro c p
    rw [hLpeMem c p, hApe c p, hsid]
  have hS3key : ∀ kk, (mapGet st'.stages kk).isSome ↔
      (kk = st.next ∨ (mapGet st2.stages kk).isSome) := by
    intro kk
    rw [hLstages]
    exact hAkey kk
  have hnext3 : st'.next = st2.next := by rw [hLnext, hAnext]
  have hstageStored : mapGet st'.stages st.next = some stage := by
    rw [hLstages, ← hsid]
    exact hAself
  have hcsNoPar : ∀ cst ∈ cs, ∀ p, ¬ edgeMem st2.child_edges p cst.id := by
    intro cst hc p hedge
    have := (step.inv.sym p cst.id).mp hedge
    rcases this with ⟨s, hs, hp⟩
    rw [step.csFree cst hc] at hs
    cases hs
    cases hp
  have hinv3 : StInv qid st' := by
    refine ⟨?_, ?_, ?_, ?_, ?_, ?_, ?_, ?_, ?_, ?_, ?_, ?_⟩
    · rw [hLstages]
      exact keysOf_insert_nodup _ _ _ step.inv.nodupS
    · exact hLndC (keysOf_insert_nodup _ _ _ step.inv.nodupC)
    · exact hLndP (keysOf_insert_nodup _ _ _ step.inv.nodupP)
    · intro k
      rw [hS3key k, hLceKey k]
      show _ ↔ (mapGet (mapInsert st2.child_edges stage.id []) k).isSome
      rw [hasKey_insert, hsid, step.inv.domC k]
    · intro k
      rw [hS3key k, hLpeKey k]
      show _ ↔ (mapGet (mapInsert st2.parent_edges stage.id []) k).isSome
      rw [hasKey_insert, hsid, step.inv.domP k]
    · intro k hk
      rcases (hS3key k).mp hk with rfl | hk2
      · omega
      · have := step.inv.bound k hk2
        omega
    · intro p c
      rw [hceMem p c, hpeMem c p, step.inv.sym p c]
    · intro p c h
      rcases (hceMem p c).mp h with h | ⟨rfl, cst, hcst, rfl⟩
      · exact step.inv.edgeLT p c h
      · obtain ⟨_, hge, _⟩ := step.csStored cst hcst
        rw [hnextEq] at hge
        omega
    · intro p c h
      rcases (hceMem p c).mp h with h | ⟨rfl, cst, hcst, rfl⟩
      · obtain ⟨h1, h2⟩ := step.inv.edgeDom p c h
        exact ⟨(hS3key p).mpr (Or.inr h1), (hS3key c).mpr (Or.inr h2)⟩
      · refine ⟨(hS3key st.next).mpr (Or.inl rfl), ?_⟩
        obtain ⟨hst, _, _⟩ := step.csStored cst hcst
        exact (hS3key cst.id).mpr (Or.inr (by rw [hst]; rfl))
    · intro p1 p2 c h1 h2
      rcases (hceMem p1 c).mp h1 with h1 | ⟨rfl, cst1, hcst1, hc1⟩ <;>
        rcases (hceMem p2 c).mp h2 with h2 | ⟨rfl, cst2, hcst2, hc2⟩
      · exact step.inv.uniqPar p1 p2 c h1 h2
      · exact absurd h1 (hc2 ▸ hcsNoPar cst2 hcst2 p1)
      · exact absurd h2 (hc1 ▸ hcsNoPar cst1 hcst1 p2)
      · rfl
    · intro k s hk
      by_cases hkk : k = st.next
      · subst hkk
        rw [hstageStored] at hk
        cases hk
        exact ⟨hsid, hsqid⟩
      · rw [hLstages, (hAne k (fun h => hkk (h.trans hsid))).1] at hk
        exact step.inv.stVals k s hk
    · intro k s hk e he
      by_cases hkk : k = st.next
      · subst hkk
        rw [hstageStored] at hk
        cases hk
        rw [hsroot] at he
        have h1 := epnok e he
        refine ⟨fun hex => ?_, h1.2⟩
        obtain ⟨hch, c, hc, hsid'⟩ := h1.1 hex
        refine ⟨hch, c.id, hsid', ?_⟩
        rw [hceMem]
        exact Or.inr ⟨rfl, c, hc, rfl⟩
      · rw [hLstages, (hAne k (fun h => hkk (h.trans hsid))).1] at hk
        have h1 := step.inv.stEpn k s hk e he
        refine ⟨fun hex => ?_, h1.2⟩
        obtain ⟨hch, c, hcsid, hedge⟩ := h1.1 hex
        refine ⟨hch, c, hcsid, ?_⟩
        rw [hceMem]
        exact Or.inl hedge
  have hfrS : ∀ k, k < st.next → mapGet st'.stages k = mapGet st.stages k := by
    intro k hk
    rw [hLstages, (hAne k (fun h => by omega : k ≠ stage.id)).1,
      step.frameS k (by rw [hnextEq]; omega)]
  have hfrC : ∀ k, k < st.next → mapGet st'.child_edges k = mapGet st.child_edges k := by
    intro k hk
    rw [hLceNe k (by omega), (hAne k (fun h => by omega : k ≠ stage.id)).2.1,
      step.frameC k (by rw [hnextEq]; omega)]
  have hfrP : ∀ k, k < st.next →
      mapGet st'.parent_edges k = mapGet st.parent_edges k := by
    intro k hk
    rw [hLpeNe k (fun c hc => by have h1 := hcsne c hc
                                 have h2 := step.csStored c hc
                                 omega),
      (hAne k (fun h => by omega : k ≠ stage.id)).2.2,
      step.frameP k (by rw [hnextEq]; omega)]
  refine ⟨⟨by omega, hinv3, hfrS, hfrC, hfrP, ?_, ?_, ?_, ?_, ?_, ?_⟩, ?_,
    hsid, hsqid, by rw [← hstage], by rw [← hstage], by omega, ?_⟩
  · -- newKeys
    intro k hk1 hk2
    rw [hS3key k]
    by_cases hkk : k = st.next
    · exact Or.inl hkk
    · refine Or.inr (step.newKeys k (by rw [hnextEq]; omega) (by omega))
  · -- oldKeys
    intro k hk
    rcases (hS3key k).mp hk with rfl | hk2
    · exact Or.inr ⟨Nat.le_refl _, by omega⟩
    · rcases step.oldKeys k hk2 with h | ⟨h1, h2⟩
      · exact Or.inl h
      · rw [hnextEq] at h1
        exact Or.inr ⟨by omega, by omega⟩
  · -- lenS
    have e3 : st'.stages.length = (addNode st2 stage).stages.length := by
      rw [hLstages]
    have l2 := step.lenS
    rw [hnextEq] at l2
    simp only [] at l2
    omega
  · -- csStored
    intro c hc
    rcases List.mem_cons.mp hc with rfl | h
    · exact ⟨hsid ▸ hstageStored, hsid ▸ Nat.le_refl _, by omega⟩
    · cases h
  · -- csFree
    intro c hc
    rcases List.mem_cons.mp hc with rfl | h
    · rw [hLpeNe c.id (fun cst hcst => by
        have := hcsne cst hcst
        rw [hsid]
        omega)]
      rw [hsid]
      exact hsid ▸ hApeSelf
    · cases h
  · -- reach
    intro k hk
    rcases (hS3key k).mp hk with rfl | hk2
    · exact Or.inr ⟨stage, by simp, hsid ▸ Relation.ReflTransGen.refl⟩
    · rcases step.reach k hk2 with h | ⟨c, hc, hr⟩
      · exact Or.inl h
      · refine Or.inr ⟨stage, by simp, ?_⟩
        have hmono : ∀ a b, edgeMem st2.child_edges a b →
            edgeMem st'.child_edges a b := by
          intro a b hab
          rw [hceMem]
          exact Or.inl hab
        have hr3 : Reach st'.child_edges c.id k :=
          Relation.ReflTransGen.mono hmono hr
        refine Relation.ReflTransGen.head ?_ hr3
        rw [hsid, hceMem]
        exact Or.inr ⟨rfl, c, hc, rfl⟩
  · -- parW
    intro k s hk
    by_cases hkk : k = st.next
    · subst hkk
      rw [hstageStored] at hk
      cases hk
      exact Or.inr (Or.inr rfl)
    · rw [hLstages, (hAne k (fun h => hkk (h.trans hsid))).1] at hk
      rcases parw k s hk with h | h
      · exact Or.inl h
      · exact Or.inr (Or.inl h)
  · -- cntS
    intro hu
    have := cnt hu
    rw [hnextEq] at this
    omega

theorem EpnOk.mono {cs cs' : List QueryStage} {l : List ExecutionPlanNode}
    (h : EpnOk cs l) (hsub : ∀ c ∈ cs, c ∈ cs') : EpnOk cs' l := by
  intro e he
  refine ⟨fun hex => ?_, (h e he).2⟩
  obtain ⟨hch, c, hc, hs⟩ := (h e he).1 hex
  exact ⟨hch, c, hsub c hc, hs⟩

/-! ### Unfolding equations for the visit recursion -/

theorem visitNode_exchange_nil (wc : Nat) (qid : String) (par : Nat)
    (id body : Nat) (schema : List Nat) (dist : Distribution) (st : FragState) :
    visitNode wc qid par
      (.node id PlanNodeType.BatchExchange body schema dist []) st = none := by
  unfold visitNode
  rfl

theorem visitNode_exchange_cons (wc : Nat) (qid : String) (par : Nat)
    (id body : Nat) (schema : List Nat) (dist : Distribution)
    (input0 : PlanRef) (rest : List PlanRef) (st : FragState) :
    visitNode wc qid par
      (.node id PlanNodeType.BatchExchange body schema dist (input0 :: rest)) st =
      match newStage wc qid input0 (some par) (some (dist.to_prost par)) st with
      | none => none
      | some (child_stage, st') =>
        some (.mk id PlanNodeType.BatchExchange body schema [] (some child_stage.id),
          [child_stage], st') := by
  unfold visitNode
  rfl

theorem visitNode_nonexchange (wc : Nat) (qid : String) (par : Nat)
    (id : Nat) (ty : PlanNodeType) (body : Nat) (schema : List Nat)
    (dist : Distribution) (inputs : List PlanRef) (st : FragState)
    (hty : ty ≠ PlanNodeType.BatchExchange) :
    visitNode wc qid par (.node id ty body schema dist inputs) st =
      match visitInputs wc qid par inputs st with
      | none => none
      | some (childEpns, stages, st') =>
        some (.mk id ty body schema childEpns none, stages, st') := by
  cases ty with
  | BatchExchange => exact absurd rfl hty
  | BatchSeqScan => unfold visitNode; rfl
  | BatchHashJoin => unfold visitNode; rfl
  | other t => unfold visitNode; rfl

theorem visitInputs_nil (wc : Nat) (qid : String) (par : Nat) (st : FragState) :
    visitInputs wc qid par [] st = some ([], [], st) := by
  unfold visitInputs
  rfl

theorem visitInputs_cons (wc : Nat) (qid : String) (par : Nat) (c : PlanRef)
    (rest : List PlanRef) (st : FragState) :
    visitInputs wc qid par (c :: rest) st =
      match visitNode wc qid par c st with
      | none => none
      | some (epn, s1, st1) =>
        match visitInputs wc qid par rest st1 with
        | none => none
        | some (epns, s2, st2) => some (epn :: epns, s1 ++ s2, st2) := by
  conv_lhs => unfold visitInputs

theorem countExchanges_node (id : Nat) (ty : PlanNodeType) (body : Nat)
    (schema : List Nat) (dist : Distribution) (inputs : List PlanRef) :
    countExchanges (.node id ty body schema dist inputs) =
      (if ty = PlanNodeType.BatchExchange then 1 else 0) +
        countExchangesList inputs := by
  unfold countExchanges
  rfl

theorem countExchangesList_nil : countExchangesList [] = 0 := by
  unfold countExchangesList
  rfl

theorem countExchangesList_cons (i : PlanRef) (rest : List PlanRef) :
    countExchangesList (i :: rest) =
      countExchanges i + countExchangesList rest := rfl

theorem unaryEx_node (id : Nat) (ty : PlanNodeType) (body : Nat)
    (schema : List Nat) (dist : Distribution) (inputs : List PlanRef) :
    unaryEx (.node id ty body schema dist inputs) =
      ((decide (ty ≠ PlanNodeType.BatchExchange) || decide (inputs.length = 1))
        && unaryExList inputs) := by
  unfold unaryEx
  rfl

theorem unaryExList_nil : unaryExList [] = true := by
  unfold unaryExList
  rfl

theorem unaryExList_cons (i : PlanRef) (rest : List PlanRef) :
    unaryExList (i :: rest) = (unaryEx i && unaryExList rest) := rfl

theorem epnNodes_mk (id : Nat) (ty : PlanNodeType) (body : Nat)
    (schema : List Nat) (children : List ExecutionPlanNode) (sid : Option Nat) :
    epnNodes (.mk id ty body schema children sid) =
      .mk id ty body schema children sid :: epnNodesList children := by
  unfold epnNodes
  rfl

theorem epnNodesList_nil : epnNodesList [] = [] := by
  unfold epnNodesList
  rfl

theorem epnNodesList_cons (e : ExecutionPlanNode) (rest : List ExecutionPlanNode) :
    epnNodesList (e :: rest) = epnNodes e ++ epnNodesList rest := rfl

/-! ### Case lemmas for the induction -/

theorem PNode_exchange_nil {qid : String} {wc : Nat} {id body : Nat}
    {schema : List Nat} {dist : Distribution} :
    PNode qid wc (.node id PlanNodeType.BatchExchange body schema dist []) := by
  intro par st epn cs st' _ hsome
  rw [visitNode_exchange_nil] at hsome
  cases hsome

theorem PNode_exchange {qid : String} {wc : Nat} {id body : Nat}
    {schema : List Nat} {dist : Distribution} {input0 : PlanRef}
    {rest : List PlanRef} (hPi : PNode qid wc input0) :
    PNode qid wc
      (.node id PlanNodeType.BatchExchange body schema dist (input0 :: rest)) := by
  intro par st epn cs st' hinv hsome
  rw [visitNode_exchange_cons] at hsome
  split at hsome
  · exact absurd hsome (by simp)
  rename_i child_stage st2 hns
  injection hsome with hpair
  injection hpair with hepn hrest2
  injection hrest2 with hcs hst
  subst st2
  have post := newStage_spec hPi (some par) (some (dist.to_prost par)) st
    child_stage st' hinv hns
  subst hcs
  refine ⟨post.step, ?_, ?_, ?_⟩
  · intro k s hk
    rcases post.parW k s hk with h | h | h
    · exact Or.inl h
    · exact Or.inr h
    · subst h
      rw [post.stagePar]
      exact Or.inr rfl
  · subst hepn
    intro e he
    rw [epnNodes_mk, epnNodesList_nil] at he
    rcases List.mem_cons.mp he with rfl | h
    · refine ⟨fun _ => ⟨rfl, child_stage, by simp, rfl⟩, fun hne => ?_⟩
      exact absurd rfl hne
    · cases h
  · intro hu
    rw [unaryEx_node] at hu
    simp only [Bool.and_eq_true, Bool.or_eq_true, decide_eq_true_eq] at hu
    obtain ⟨h1, h2⟩ := hu
    rcases h1 with h1 | h1
    · exact absurd rfl h1
    · have hrest0 : rest = [] := by
        cases rest with
        | nil => rfl
        | cons a b => simp at h1
      subst hrest0
      rw [unaryExList_cons, unaryExList_nil, Bool.and_true] at h2
      have hcnt := post.cntS h2
      rw [countExchanges_node, if_pos rfl, countExchangesList_cons,
        countExchangesList_nil]
      omega

theorem PNode_nonexchange {qid : String} {wc : Nat} {id : Nat}
    {ty : PlanNodeType} {body : Nat} {schema : List Nat} {dist : Distribution}
    {inputs : List PlanRef} (hty : ty ≠ PlanNodeType.BatchExchange)
    (hPL : PList qid wc inputs) :
    PNode qid wc (.node id ty body schema dist inputs) := by
  intro par st epn cs st' hinv hsome
  rw [visitNode_nonexchange _ _ _ _ _ _ _ _ _ _ hty] at hsome
  split at hsome
  · exact absurd hsome (by simp)
  rename_i epns css st2 hvi
  injection hsome with hpair
  injection hpair with hepn hrest2
  injection hrest2 with hcs hst
  subst st2
  obtain ⟨stepL, parwL, epnokL, cntL⟩ := hPL par st epns css st' hinv hvi
  subst hcs
  refine ⟨stepL, parwL, ?_, ?_⟩
  · subst hepn
    intro e he
    rw [epnNodes_mk] at he
    rcases List.mem_cons.mp he with rfl | h
    · refine ⟨fun hex => absurd hex hty, fun _ => rfl⟩
    · exact epnokL e h
  · intro hu
    rw [unaryEx_node] at hu
    simp only [Bool.and_eq_true] at hu
    have := cntL hu.2
    rw [countExchanges_node, if_neg hty]
    omega

theorem PList_nil {qid : String} {wc : Nat} : PList qid wc [] := by
  intro par st epns css st' hinv hsome
  rw [visitInputs_nil] at hsome
  injection hsome with hpair
  injection hpair with hepns hrest2
  injection hrest2 with hcss hst
  subst st
  subst hcss
  refine ⟨StepPost.refl hinv, fun k s hk => Or.inl hk, ?_, ?_⟩
  · subst hepns
    intro e he
    rw [epnNodesList_nil] at he
    cases he
  · intro _
    rw [countExchangesList_nil]
    omega

theorem PList_cons {qid : String} {wc : Nat} {c : PlanRef} {rest : List PlanRef}
    (hPn : PNode qid wc c) (hPL : PList qid wc rest) :
    PList qid wc (c :: rest) := by
  intro par st epns css st' hinv hsome
  rw [visitInputs_cons] at hsome
  split at hsome
  · exact absurd hsome (by simp)
  rename_i epn1 cs1 st1 hv1
  split at hsome
  · exact absurd hsome (by simp)
  rename_i epns2 css2 st2 hv2
  injection hsome with hpair
  injection hpair with hepns hrest2
  injection hrest2 with hcss hst
  subst st2
  obtain ⟨s1, pw1, eo1, c1⟩ := hPn par st epn1 cs1 st1 hinv hv1
  obtain ⟨s2, pw2, eo2, c2⟩ := hPL par st1 epns2 css2 st' s1.inv hv2
  subst hcss
  refine ⟨s1.comp s2, ?_, ?_, ?_⟩
  · intro k s hk
    rcases pw2 k s hk with h | h
    · rcases pw1 k s h with h' | h'
      · exact Or.inl h'
      · exact Or.inr h'
    · exact Or.inr h
  · subst hepns
    intro e he
    rw [epnNodesList_cons] at he
    rcases List.mem_append.mp he with h | h
    · exact (eo1.mono (fun c hc => List.mem_append.mpr (Or.inl hc))) e h
    · exact (eo2.mono (fun c hc => List.mem_append.mpr (Or.inr hc))) e h
  · intro hu
    rw [unaryExList_cons] at hu
    simp only [Bool.and_eq_true] at hu
    have e1 := c1 hu.1
    have e2 := c2 hu.2
    rw [countExchangesList_cons]
    omega

/-- The master induction: the visit postconditions hold for every plan
node and every input list. -/
theorem master (qid : String) (wc : Nat) :
    ∀ N, (∀ node, sizeOf node < N → PNode qid wc node) ∧
         (∀ l : List PlanRef, sizeOf l < N → PList qid wc l) := by
  intro N
  induction N using Nat.strong_induction_on with
  | _ N ih =>
    constructor
    · intro node hN
      obtain ⟨id, ty, body, schema, dist, inputs⟩ := node
      by_cases hty : ty = PlanNodeType.BatchExchange
      · subst hty
        rcases inputs with _ | ⟨input0, rest⟩
        · exact PNode_exchange_nil
        · have hsz : sizeOf input0 <
              sizeOf (PlanRef.node id PlanNodeType.BatchExchange body schema dist
                (input0 :: rest)) := by
            simp [PlanRef.node.sizeOf_spec]
            try omega
          exact PNode_exchange ((ih _ hN).1 input0 hsz)
      · have hsz : sizeOf inputs <
            sizeOf (PlanRef.node id ty body schema dist inputs) := by
          simp [PlanRef.node.sizeOf_spec]
          try omega
        exact PNode_nonexchange hty ((ih _ hN).2 inputs hsz)
    · intro l hN
      rcases l with _ | ⟨c, rest⟩
      · exact PList_nil
      · have hsz1 : sizeOf c < sizeOf (c :: rest) := by
          simp
          try omega
        have hsz2 : sizeOf rest < sizeOf (c :: rest) := by
          simp
          try omega
        exact PList_cons ((ih _ hN).1 c hsz1) ((ih _ hN).2 rest hsz2)

/-- Every plan node satisfies the visit postcondition. -/
theorem pnode_all (qid : String) (wc : Nat) (node : PlanRef) :
    PNode qid wc node :=
  (master qid wc (sizeOf node + 1)).1 node (Nat.lt_succ_self _)

/-- Every input list satisfies the visit postcondition. -/
theorem plist_all (qid : String) (wc : Nat) (l : List PlanRef) :
    PList qid wc l :=
  (master qid wc (sizeOf l + 1)).2 l (Nat.lt_succ_self _)

/-! ### Consequences for the emitted `Query` -/

/-- Everything `split` guarantees about the `Query` it emits. -/
structure GraphPost (wc : Nat) (qid : String) (plan : PlanRef) (q : Query) :
    Prop where
  qidEq : q.query_id = qid
  rootId : q.stage_graph.root_stage_id = 0
  nodupS : (keysOf q.stage_graph.stages).Nodup
  domC : ∀ k, (mapGet q.stage_graph.stages k).isSome ↔
    (mapGet q.stage_graph.child_edges k).isSome
  domP : ∀ k, (mapGet q.stage_graph.stages k).isSome ↔
    (mapGet q.stage_graph.parent_edges k).isSome
  symE : ∀ p c, edgeMem q.stage_graph.child_edges p c ↔
    edgeMem q.stage_graph.parent_edges c p
  edgeLT : ∀ p c, edgeMem q.stage_graph.child_edges p c → p < c
  edgeDom : ∀ p c, edgeMem q.stage_graph.child_edges p c →
    (mapGet q.stage_graph.stages p).isSome ∧ (mapGet q.stage_graph.stages c).isSome
  uniqPar : ∀ p1 p2 c, edgeMem q.stage_graph.child_edges p1 c →
    edgeMem q.stage_graph.child_edges p2 c → p1 = p2
  keysDense : ∀ k, (mapGet q.stage_graph.stages k).isSome ↔
    k < q.stage_graph.stages.length
  stVals : ∀ k s, mapGet q.stage_graph.stages k = some s →
    s.id = k ∧ s.query_id = qid
  rootStage : ∃ s, mapGet q.stage_graph.stages 0 = some s ∧ s.parallelism = 1 ∧
    s.exchange_info = Distribution.Single.to_prost 1
  nonRootPar : ∀ k s, mapGet q.stage_graph.stages k = some s → k ≠ 0 →
    s.parallelism = wc
  reachAll : ∀ k, (mapGet q.stage_graph.stages k).isSome →
    Reach q.stage_graph.child_edges 0 k
  stEpn : ∀ k s, mapGet q.stage_graph.stages k = some s →
    ∀ e ∈ epnNodes s.root,
    (e.plan_node_type = PlanNodeType.BatchExchange →
      e.children = [] ∧ ∃ c, e.stage_id = some c ∧
        edgeMem q.stage_graph.child_edges k c) ∧
    (e.plan_node_type ≠ PlanNodeType.BatchExchange → e.stage_id = none)
  cntStages : unaryEx plan = true →
    q.stage_graph.stages.length = 1 + countExchanges plan

theorem split_spec {wc : Nat} {qid : String} {plan : PlanRef} {q : Query}
    (h : split wc qid plan = some q) : GraphPost wc qid plan q := by
  unfold split at h
  split at h
  · exact absurd h (by simp)
  rename_i root_stage stF hns
  injection h with hq
  subst hq
  have post := newStage_spec (pnode_all qid wc plan) none none ⟨0, [], [], []⟩
    root_stage stF (StInv.initial qid) hns
  have hempty : ∀ k, mapGet ([] : List (Nat × QueryStage)) k = none := fun _ => rfl
  have hrid : root_stage.id = 0 := post.stageId
  have hkeys : ∀ k, (mapGet stF.stages k).isSome ↔ k < stF.next := by
    intro k
    constructor
    · intro hk
      exact post.step.inv.bound k hk
    · intro hk
      exact post.step.newKeys k (Nat.zero_le _) hk
  have hlen : stF.stages.length = stF.next := by
    have := post.step.lenS
    simp at this
    omega
  refine ⟨rfl, hrid, post.step.inv.nodupS, post.step.inv.domC, post.step.inv.domP,
    post.step.inv.sym, post.step.inv.edgeLT, post.step.inv.edgeDom,
    post.step.inv.uniqPar, ?_, post.step.inv.stVals, ?_, ?_, ?_, ?_, ?_⟩
  · intro k
    rw [hkeys k, hlen]
  · obtain ⟨hst, _, _⟩ := post.step.csStored root_stage (by simp)
    refine ⟨root_stage, hrid ▸ hst, ?_, ?_⟩
    · rw [post.stagePar]
    · rw [post.stageEinfo]
  · intro k s hk hk0
    rcases post.parW k s hk with h | h | h
    · rw [hempty] at h
      cases h
    · exact h
    · subst h
      have := (post.step.inv.stVals k s hk).1
      rw [hrid] at this
      exact absurd this.symm hk0
  · intro k hk
    rcases post.step.reach k hk with h | ⟨c, hc, hr⟩
    · rw [hempty] at h
      cases h
    · rcases List.mem_singleton.mp hc with rfl
      exact hrid ▸ hr
  · exact post.step.inv.stEpn
  · intro hu
    have := post.cntS hu
    simp at this
    show stF.stages.length = 1 + countExchanges plan
    omega

/-! ### Success of `split` on well-formed plans -/

/-- Success statement for `visitNode`. -/
def SNode (qid : String) (wc : Nat) (node : PlanRef) : Prop :=
  ∀ par st, StInv qid st → unaryEx node = true →
    (visitNode wc qid par node st).isSome

/-- Success statement for `visitInputs`. -/
def SList (qid : String) (wc : Nat) (l : List PlanRef) : Prop :=
  ∀ par st, StInv qid st → unaryExList l = true →
    (visitInputs wc qid par l st).isSome

theorem finish_isSome {qid : String} {wc par1 : Nat} {node : PlanRef}
    {st : FragState} {epn : ExecutionPlanNode} {cs : List QueryStage}
    {st2 : FragState} (hinv : StInv qid st)
    (hv : visitNode wc qid par1 node { st with next := st.next + 1 } =
      some (epn, cs, st2))
    (einfo0 : ExchangeInfo) (par0 : Nat) :
    (linkAll (addNode st2
      { query_id := qid, id := st.next, root := epn
        exchange_info := einfo0, parallelism := par0 }) st.next cs).isSome := by
  have hinv1 : StInv qid { st with next := st.next + 1 } :=
    hinv.bump (Nat.le_succ _)
  obtain ⟨step, _, _, _⟩ := pnode_all qid wc node _ _ _ _ _ hinv1 hv
  have hfresh : mapGet st2.stages st.next = none := by
    rcases hh : mapGet st2.stages st.next with _ | s
    · rfl
    · exfalso
      rcases step.oldKeys st.next (by rw [hh]; rfl) with hk | ⟨hk, _⟩
      · have hlt := hinv.bound st.next hk
        omega
      · have hne : ({ st with next := st.next + 1 } : FragState).next
            = st.next + 1 := rfl
        rw [hne] at hk
        omega
  have hfreshC : mapGet st2.child_edges st.next = none := by
    rcases hh : mapGet st2.child_edges st.next with _ | s
    · rfl
    · have := (step.inv.domC st.next).mpr (by rw [hh]; rfl)
      rw [hfresh] at this
      cases this
  have hfreshP : mapGet st2.parent_edges st.next = none := by
    rcases hh : mapGet st2.parent_edges st.next with _ | s
    · rfl
    · have := (step.inv.domP st.next).mpr (by rw [hh]; rfl)
      rw [hfresh] at this
      cases this
  have hcsne : ∀ c ∈ cs, c.id ≠ st.next := by
    intro c hc
    obtain ⟨_, hge, _⟩ := step.csStored c hc
    have hne : ({ st with next := st.next + 1 } : FragState).next = st.next + 1 := rfl
    rw [hne] at hge
    omega
  set stg : QueryStage :=
    { query_id := qid, id := st.next, root := epn
      exchange_info := einfo0, parallelism := par0 } with hstg
  have hsid : stg.id = st.next := rfl
  obtain ⟨hAnext, hAself, hAne, hAceSelf, hApeSelf, hAce, hApe, hAlen⟩ :=
    addNode_spec st2 stg (hsid ▸ hfresh) (hsid ▸ hfreshC) (hsid ▸ hfreshP)
  obtain ⟨st3, hlink, _⟩ :=
    linkAll_spec stg.id cs (addNode st2 stg)
      (by rw [hAceSelf]; rfl)
      (by
        intro c hc
        rw [(hAne c.id (hsid ▸ hcsne c hc)).2.2]
        rw [step.csFree c hc]
        rfl)
  rw [hsid] at hlink
  rw [hlink]
  rfl

theorem newStage_isSome {qid : String} {wc : Nat} {node : PlanRef}
    (hS : SNode qid wc node) :
    ∀ pp ei st, StInv qid st → unaryEx node = true →
    (newStage wc qid node pp ei st).isSome := by
  intro pp ei st hinv hu
  have hinv1 : StInv qid { st with next := st.next + 1 } :=
    hinv.bump (Nat.le_succ _)
  unfold newStage
  simp only []
  split
  · rename_i heq
    exact absurd (hS _ _ hinv1 hu) (by rw [heq]; simp)
  · rename_i epn cs st2 hvs
    split
    · rename_i heq2
      exact absurd (finish_isSome hinv hvs _ _) (by rw [heq2]; simp)
    · simp

theorem SNode_exchange {qid : String} {wc : Nat} {id body : Nat}
    {schema : List Nat} {dist : Distribution} {input0 : PlanRef}
    {rest : List PlanRef} (hSi : SNode qid wc input0) :
    SNode qid wc
      (.node id PlanNodeType.BatchExchange body schema dist (input0 :: rest)) := by
  intro par st hinv hu
  rw [visitNode_exchange_cons]
  rw [unaryEx_node] at hu
  simp only [Bool.and_eq_true, Bool.or_eq_true, decide_eq_true_eq] at hu
  obtain ⟨h1, h2⟩ := hu
  have hu0 : unaryEx input0 = true := by
    rw [unaryExList_cons] at h2
    simp only [Bool.and_eq_true] at h2
    exact h2.1
  have := newStage_isSome hSi (some par) (some (dist.to_prost par)) st hinv hu0
  rcases hns : newStage wc qid input0 (some par) (some (dist.to_prost par)) st
    with _ | ⟨child_stage, st2⟩
  · rw [hns] at this
    cases this
  · simp only [hns]
    rfl

theorem SNode_nonexchange {qid : String} {wc : Nat} {id : Nat}
    {ty : PlanNodeType} {body : Nat} {schema : List Nat} {dist : Distribution}
    {inputs : List PlanRef} (hty : ty ≠ PlanNodeType.BatchExchange)
    (hSL : SList qid wc inputs) :
    SNode qid wc (.node id ty body schema dist inputs) := by
  intro par st hinv hu
  rw [visitNode_nonexchange _ _ _ _ _ _ _ _ _ _ hty]
  rw [unaryEx_node] at hu
  simp only [Bool.and_eq_true] at hu
  have := hSL par st hinv hu.2
  rcases hvi : visitInputs wc qid par inputs st with _ | ⟨epns, css, st2⟩
  · rw [hvi] at this
    cases this
  · simp only [hvi]
    rfl

theorem SList_nil {qid : String} {wc : Nat} : SList qid wc [] := by
  intro par st _ _
  rw [visitInputs_nil]
  rfl

theorem SList_cons {qid : String} {wc : Nat} {c : PlanRef} {rest : List PlanRef}
    (hSn : SNode qid wc c) (hSL : SList qid wc rest) :
    SList qid wc (c :: rest) := by
  intro par st hinv hu
  rw [unaryExList_cons] at hu
  simp only [Bool.and_eq_true] at hu
  rw [visitInputs_cons]
  have h1 := hSn par st hinv hu.1
  rcases hv1 : visitNode wc qid par c st with _ | ⟨epn, cs1, st1⟩
  · rw [hv1] at h1
    cases h1
  obtain ⟨s1, _, _, _⟩ := pnode_all qid wc c par st epn cs1 st1 hinv hv1
  have h2 := hSL par st1 s1.inv hu.2
  rcases hv2 : visitInputs wc qid par rest st1 with _ | ⟨epns, css2, st2⟩
  · rw [hv2] at h2
    cases h2
  · simp only [hv1, hv2]
    rfl

/-- Every plan node can be visited successfully on well-formed plans. -/
theorem snode_all (qid : String) (wc : Nat) :
    ∀ N, (∀ node, sizeOf node < N → SNode qid wc node) ∧
         (∀ l : List PlanRef, sizeOf l < N → SList qid wc l) := by
  intro N
  induction N using Nat.strong_induction_on with
  | _ N ih =>
    constructor
    · intro node hN
      obtain ⟨id, ty, body, schema, dist, inputs⟩ := node
      by_cases hty : ty = PlanNodeType.BatchExchange
      · subst hty
        rcases inputs with _ | ⟨input0, rest⟩
        · intro par st _ hu
          rw [unaryEx_node] at hu
          simp at hu
        · have hsz : sizeOf input0 <
              sizeOf (PlanRef.node id PlanNodeType.BatchExchange body schema dist
                (input0 :: rest)) := by
            simp [PlanRef.node.sizeOf_spec]
            try omega
          exact SNode_exchange ((ih _ hN).1 input0 hsz)
      · have hsz : sizeOf inputs <
            sizeOf (PlanRef.node id ty body schema dist inputs) := by
          simp [PlanRef.node.sizeOf_spec]
          try omega
        exact SNode_nonexchange hty ((ih _ hN).2 inputs hsz)
    · intro l hN
      rcases l with _ | ⟨c, rest⟩
      · exact SList_nil
      · have hsz1 : sizeOf c < sizeOf (c :: rest) := by
          simp
          try omega
        have hsz2 : sizeOf rest < sizeOf (c :: rest) := by
          simp
          try omega
        exact SList_cons ((ih _ hN).1 c hsz1) ((ih _ hN).2 rest hsz2)

/-- On a plan whose exchanges are all unary, `split` succeeds. -/
theorem split_isSome (wc : Nat) (qid : String) (plan : PlanRef)
    (hu : unaryEx plan = true) : (split wc qid plan).isSome := by
  have hS : SNode qid wc plan :=
    ((snode_all qid wc (sizeOf plan + 1)).1 plan (Nat.lt_succ_self _))
  have := newStage_isSome hS none none ⟨0, [], [], []⟩ (StInv.initial qid) hu
  unfold split
  rcases hns : newStage wc qid plan none none ⟨0, [], [], []⟩ with _ | ⟨rs, stF⟩
  · rw [hns] at this
    cases this
  · simp only [hns]
    rfl

/-! ### Correctness of `stage_ids_by_topo_order` -/

theorem topoLoop_nil (ce : List (Nat × List Nat)) (ret ex : List Nat) :
    topoLoop ce [] ret ex = some ret := by
  unfold topoLoop
  rfl

theorem topoLoop_cons_mem (ce : List (Nat × List Nat)) (s : Nat)
    (stack' ret ex : List Nat) (h : s ∈ ex) :
    topoLoop ce (s :: stack') ret ex = topoLoop ce stack' ret ex := by
  conv_lhs => unfold topoLoop
  rw [if_pos h]

theorem topoLoop_cons_visit (ce : List (Nat × List Nat)) (s : Nat)
    (stack' ret ex : List Nat) (cs : List Nat) (h : s ∉ ex)
    (hcs : mapGet ce s = some cs) :
    topoLoop ce (s :: stack') ret ex =
      topoLoop ce (cs.reverse ++ stack') (ret ++ [s]) (ex ++ [s]) := by
  conv_lhs => unfold topoLoop
  rw [if_neg h]
  split
  · rename_i heq
    rw [hcs] at heq
    cases heq
  · rename_i cs2 heq
    rw [hcs] at heq
    injection heq with h2
    subst h2
    rfl

/-- Loop invariant of the DFS (`existing` always equals `ret`, which is
exploited by stating everything over `ret`). -/
structure DfsInv (ce : List (Nat × List Nat)) (root : Nat)
    (stack ret : List Nat) : Prop where
  nodup : ret.Nodup
  retDom : ∀ k ∈ ret, (mapGet ce k).isSome
  stackDom : ∀ k ∈ stack, (mapGet ce k).isSome
  stackPar : ∀ k ∈ stack, k = root ∨ ∃ p ∈ ret, edgeMem ce p k
  closure : ∀ p ∈ ret, ∀ c, edgeMem ce p c → c ∈ ret ∨ c ∈ stack
  order : ∀ p c, edgeMem ce p c → c ∈ ret →
    p ∈ ret ∧ List.indexOf p ret < List.indexOf c ret
  rootIn : root ∈ ret ∨ root ∈ stack

/-- What the DFS loop returns, assuming the invariant. -/
theorem topoLoop_post (ce : List (Nat × List Nat)) (root : Nat)
    (H2 : ∀ p c, edgeMem ce p c → (mapGet ce c).isSome)
    (H3 : ∀ p1 p2 c, edgeMem ce p1 c → edgeMem ce p2 c → p1 = p2)
    (H4 : ∀ p, ¬ edgeMem ce p root) :
    ∀ M ret, ((keysOf ce).filter (fun k => decide (k ∉ ret))).length ≤ M →
    ∀ stack, DfsInv ce root stack ret →
    ∃ l, topoLoop ce stack ret ret = some l ∧
      l.Nodup ∧
      (∀ k ∈ l, (mapGet ce k).isSome) ∧
      (∀ k ∈ ret, k ∈ l) ∧ (∀ k ∈ stack, k ∈ l) ∧
      (∀ p ∈ l, ∀ c, edgeMem ce p c → c ∈ l) ∧
      (∀ p c, edgeMem ce p c → c ∈ l →
        p ∈ l ∧ List.indexOf p l < List.indexOf c l) ∧
      root ∈ l := by
  intro M
  induction M using Nat.strong_induction_on with
  | _ M ihM =>
    intro ret hM stack
    induction stack with
    | nil =>
      intro inv
      refine ⟨ret, topoLoop_nil ce ret ret, inv.nodup, inv.retDom,
        fun k hk => hk, fun k hk => absurd hk (List.not_mem_nil k), ?_,
        inv.order, ?_⟩
      · intro p hp c hc
        rcases inv.closure p hp c hc with h | h
        · exact h
        · exact absurd h (List.not_mem_nil c)
      · rcases inv.rootIn with h | h
        · exact h
        · exact absurd h (List.not_mem_nil root)
    | cons s stack' ihS =>
      intro inv
      by_cases hs : s ∈ ret
      · -- already visited: skip
        rw [topoLoop_cons_mem ce s stack' ret ret hs]
        have inv' : DfsInv ce root stack' ret := by
          refine ⟨inv.nodup, inv.retDom, ?_, ?_, ?_, inv.order, ?_⟩
          · intro k hk
            exact inv.stackDom k (List.mem_cons_of_mem s hk)
          · intro k hk
            exact inv.stackPar k (List.mem_cons_of_mem s hk)
          · intro p hp c hc
            rcases inv.closure p hp c hc with h | h
            · exact Or.inl h
            · rcases List.mem_cons.mp h with rfl | h2
              · exact Or.inl hs
              · exact Or.inr h2
          · rcases inv.rootIn with h | h
            · exact Or.inl h
            · rcases List.mem_cons.mp h with rfl | h2
              · exact Or.inl hs
              · exact Or.inr h2
        obtain ⟨l, hl, posts⟩ := ihS inv'
        refine ⟨l, hl, posts.1, posts.2.1, posts.2.2.1, ?_,
          posts.2.2.2.2.1, posts.2.2.2.2.2.1, posts.2.2.2.2.2.2⟩
        intro k hk
        rcases List.mem_cons.mp hk with rfl | h2
        · exact posts.2.2.1 k hs
        · exact posts.2.2.2.1 k h2
      · -- fresh node: visit
        have hdom := inv.stackDom s (List.mem_cons_self s stack')
        rcases hcs : mapGet ce s with _ | cs
        · rw [hcs] at hdom
          cases hdom
        rw [topoLoop_cons_visit ce s stack' ret ret cs hs hcs]
        have hedge : ∀ c ∈ cs, edgeMem ce s c := by
          intro c hc
          exact ⟨cs, hcs, hc⟩
        -- the parent of s (if s is not the root) is already visited
        have hsParent : s = root ∨ ∃ p ∈ ret, edgeMem ce p s :=
          inv.stackPar s (List.mem_cons_self s stack')
        have inv' : DfsInv ce root (cs.reverse ++ stack') (ret ++ [s]) := by
          refine ⟨?_, ?_, ?_, ?_, ?_, ?_, ?_⟩
          · exact List.Nodup.append inv.nodup (List.nodup_singleton s)
              (by
                intro a ha hb
                rcases List.mem_singleton.mp hb with rfl
                exact hs ha)
          · intro k hk
            rcases List.mem_append.mp hk with h | h
            · exact inv.retDom k h
            · rcases List.mem_singleton.mp h with rfl
              rw [hcs]
              rfl
          · intro k hk
            rcases List.mem_append.mp hk with h | h
            · exact H2 s k (hedge k (List.mem_reverse.mp h))
            · exact inv.stackDom k (List.mem_cons_of_mem s h)
          · intro k hk
            rcases List.mem_append.mp hk with h | h
            · exact Or.inr ⟨s, List.mem_append.mpr (Or.inr (List.mem_singleton_self s)),
                hedge k (List.mem_reverse.mp h)⟩
            · rcases inv.stackPar k (List.mem_cons_of_mem s h) with h2 | ⟨p, hp, he⟩
              · exact Or.inl h2
              · exact Or.inr ⟨p, List.mem_append.mpr (Or.inl hp), he⟩
          · intro p hp c hc
            rcases List.mem_append.mp hp with h | h
            · rcases inv.closure p h c hc with h2 | h2
              · exact Or.inl (List.mem_append.mpr (Or.inl h2))
              · rcases List.mem_cons.mp h2 with rfl | h3
                · exact Or.inl (List.mem_append.mpr
                    (Or.inr (List.mem_singleton_self c)))
                · exact Or.inr (List.mem_append.mpr (Or.inr h3))
            · rcases List.mem_singleton.mp h with rfl
              exact Or.inr (List.mem_append.mpr
                (Or.inl (List.mem_reverse.mpr ((edgeMem_of_mapGet hcs).mp hc))))
          · intro p c he hc
            rcases List.mem_append.mp hc with h | h
            · obtain ⟨hp, hlt⟩ := inv.order p c he h
              refine ⟨List.mem_append.mpr (Or.inl hp), ?_⟩
              rw [List.indexOf_append_of_mem hp, List.indexOf_append_of_mem h]
              exact hlt
            · rcases List.mem_singleton.mp h with rfl
              rcases hsParent with rfl | ⟨p', hp', he'⟩
              · exact absurd he (H4 p)
              · have hpp : p = p' := H3 p p' c he he'
                subst hpp
                refine ⟨List.mem_append.mpr (Or.inl hp'), ?_⟩
                rw [List.indexOf_append_of_mem hp',
                  List.indexOf_append_of_not_mem hs]
                calc List.indexOf p ret < ret.length :=
                      List.indexOf_lt_length.mpr hp'
                  _ ≤ ret.length + List.indexOf c [c] := Nat.le_add_right _ _
          · rcases inv.rootIn with h | h
            · exact Or.inl (List.mem_append.mpr (Or.inl h))
            · rcases List.mem_cons.mp h with rfl | h2
              · exact Or.inl (List.mem_append.mpr
                  (Or.inr (List.mem_singleton_self root)))
              · exact Or.inr (List.mem_append.mpr (Or.inr h2))
        have hμ : ((keysOf ce).filter
            (fun k => decide (k ∉ ret ++ [s]))).length <
            ((keysOf ce).filter (fun k => decide (k ∉ ret))).length := by
          apply length_filter_strict (x := s)
          · intro a ha
            simp at ha ⊢
            exact ha.1
          · exact mem_keysOf_of_mapGet hcs
          · simpa using hs
          · simp
        obtain ⟨l, hl, posts⟩ :=
          ihM _ (by omega) (ret ++ [s]) (Nat.le_refl _)
            (cs.reverse ++ stack') inv'
        refine ⟨l, hl, posts.1, posts.2.1, ?_, ?_, posts.2.2.2.2.1,
          posts.2.2.2.2.2.1, posts.2.2.2.2.2.2⟩
        · intro k hk
          exact posts.2.2.1 k (List.mem_append.mpr (Or.inl hk))
        · intro k hk
          rcases List.mem_cons.mp hk with rfl | h
          · exact posts.2.2.1 k (List.mem_append.mpr
              (Or.inr (List.mem_singleton_self k)))
          · exact posts.2.2.2.1 k (List.mem_append.mpr (Or.inr h))

theorem indexOf_reverse_sum : ∀ {l : List Nat}, l.Nodup → ∀ x, x ∈ l →
    List.indexOf x l.reverse + List.indexOf x l + 1 = l.length := by
  intro l
  induction l with
  | nil =>
    intro _ x hx
    cases hx
  | cons a tl ih =>
    intro hnd x hx
    rw [List.reverse_cons]
    rcases List.mem_cons.mp hx with rfl | hmem
    · have ha : x ∉ tl := (List.nodup_cons.mp hnd).1
      have ha' : x ∉ tl.reverse := fun h => ha (List.mem_reverse.mp h)
      rw [List.indexOf_append_of_not_mem ha', List.indexOf_cons_self]
      simp
    · have hne : a ≠ x := by
        rintro rfl
        exact (List.nodup_cons.mp hnd).1 hmem
      rw [List.indexOf_append_of_mem (List.mem_reverse.mpr hmem),
        List.indexOf_cons_ne _ hne]
      have := ih (List.nodup_cons.mp hnd).2 x hmem
      simp only [List.length_cons]
      omega

/-- Full correctness of the topological iterator on the graphs emitted by
`split`: it succeeds, yields each stage id exactly once, and places every
child strictly before each of its parents. -/
theorem topo_order_spec {wc : Nat} {qid : String} {plan : PlanRef} {q : Query}
    (hgp : GraphPost wc qid plan q) :
    ∃ l, stage_ids_by_topo_order q.stage_graph = some l ∧
      l.Nodup ∧
      (∀ k, k ∈ l ↔ (mapGet q.stage_graph.stages k).isSome) ∧
      (∀ p c, edgeMem q.stage_graph.child_edges p c →
        List.indexOf c l < List.indexOf p l) := by
  have H2 : ∀ p c, edgeMem q.stage_graph.child_edges p c →
      (mapGet q.stage_graph.child_edges c).isSome := by
    intro p c h
    exact (hgp.domC c).mp (hgp.edgeDom p c h).2
  have H4 : ∀ p, ¬ edgeMem q.stage_graph.child_edges p 0 := by
    intro p h
    have := hgp.edgeLT p 0 h
    omega
  obtain ⟨s0, hs0, _, _⟩ := hgp.rootStage
  have hinv0 : DfsInv q.stage_graph.child_edges 0 [0] [] := by
    refine ⟨List.nodup_nil, ?_, ?_, ?_, ?_, ?_, Or.inr (List.mem_singleton_self 0)⟩
    · intro k hk
      cases hk
    · intro k hk
      rcases List.mem_singleton.mp hk with rfl
      exact (hgp.domC 0).mp (by rw [hs0]; rfl)
    · intro k hk
      rcases List.mem_singleton.mp hk with rfl
      exact Or.inl rfl
    · intro p hp
      cases hp
    · intro p c _ hc
      cases hc
  obtain ⟨l0, hl0, hnd, hdomAll, _, hstackMem, hclosure, horder, hrootMem⟩ :=
    topoLoop_post q.stage_graph.child_edges 0 H2 hgp.uniqPar H4 _ []
      (Nat.le_refl _) [0] hinv0
  have hmem : ∀ k, k ∈ l0 ↔ (mapGet q.stage_graph.stages k).isSome := by
    intro k
    constructor
    · intro hk
      exact (hgp.domC k).mpr (hdomAll k hk)
    · intro hk
      have hreach := hgp.reachAll k hk
      clear hk
      unfold Reach at hreach
      induction hreach with
      | refl => exact hrootMem
      | tail h1 h2 ih => exact hclosure _ ih _ h2
  refine ⟨l0.reverse, ?_, List.nodup_reverse.mpr hnd, ?_, ?_⟩
  · unfold stage_ids_by_topo_order
    rw [hgp.rootId, hl0]
    rfl
  · intro k
    rw [List.mem_reverse]
    exact hmem k
  · intro p c he
    obtain ⟨hpmem, hlt⟩ := horder p c he (by
      rw [hmem c]
      exact (hgp.edgeDom p c he).2)
    have hcmem : c ∈ l0 := by
      rw [hmem c]
      exact (hgp.edgeDom p c he).2
    have e1 := indexOf_reverse_sum hnd p hpmem
    have e2 := indexOf_reverse_sum hnd c hcmem
    omega

/-! ### Dependence on the query id

The query id is only stamped into the emitted stages; it steers no control
flow.  `requery q` replaces every stored query id by `q`. -/

/-- Replace the query id of one stage. -/
def setQid (q : String) (s : QueryStage) : QueryStage :=
  { s with query_id := q }

/-- Replace the query id in every stored stage. -/
def requeryState (q : String) (st : FragState) : FragState :=
  { st with stages := st.stages.map (fun p => (p.1, setQid q p.2)) }

/-- Replace the query id everywhere in a query. -/
def requeryQuery (q : String) (qu : Query) : Query :=
  ⟨q, ⟨qu.stage_graph.root_stage_id,
    qu.stage_graph.stages.map (fun p => (p.1, setQid q p.2)),
    qu.stage_graph.child_edges, qu.stage_graph.parent_edges⟩⟩

theorem setQid_id (q : String) (s : QueryStage) : (setQid q s).id = s.id := rfl

theorem map_filter_comm {α β : Type} (f : α → β) (p : α → Bool) (p' : β → Bool)
    (h : ∀ a, p' (f a) = p a) : ∀ l : List α,
    (l.filter p).map f = (l.map f).filter p' := by
  intro l
  induction l with
  | nil => rfl
  | cons a tl ih =>
    rw [List.filter_cons, List.map_cons, List.filter_cons, h a]
    cases hpa : p a with
    | true => rw [if_pos rfl, if_pos rfl, List.map_cons, ih]
    | false =>
      rw [if_neg (by simp), if_neg (by simp), ih]

theorem map_mapInsert (q : String) (m : List (Nat × QueryStage)) (k : Nat)
    (v : QueryStage) :
    (mapInsert m k v).map (fun p => (p.1, setQid q p.2)) =
      mapInsert (m.map (fun p => (p.1, setQid q p.2))) k (setQid q v) := by
  unfold mapInsert
  simp only [List.map_cons]
  congr 1
  exact map_filter_comm (fun p => (p.1, setQid q p.2)) (fun p => ¬ p.1 == k)
    (fun p => ¬ p.1 == k) (fun a => rfl) m

theorem mapGet_map {α β : Type} (f : α → β) (m : List (Nat × α)) (k : Nat) :
    mapGet (m.map (fun p => (p.1, f p.2))) k = (mapGet m k).map f := by
  unfold mapGet
  induction m with
  | nil => rfl
  | cons a tl ih =>
    by_cases hk : a.1 = k
    · have : (a.1 == k) = true := by simp [hk]
      simp [List.find?, this]
    · have : (a.1 == k) = false := by simp [hk]
      simp only [List.map_cons, List.find?, this]
      exact ih

theorem requeryState_addNode (q : String) (st : FragState) (stage : QueryStage) :
    requeryState q (addNode st stage) =
      addNode (requeryState q st) (setQid q stage) := by
  unfold requeryState addNode
  simp only []
  congr 1
  exact map_mapInsert q st.stages stage.id stage

theorem requeryState_linkToChild (q : String) (st : FragState) (p c : Nat) :
    linkToChild (requeryState q st) p c =
      (linkToChild st p c).map (requeryState q) := by
  unfold linkToChild requeryState
  simp only []
  cases mapGet st.child_edges p with
  | none => rfl
  | some cs =>
    cases mapGet st.parent_edges c with
    | none => rfl
    | some ps => rfl

theorem requeryState_linkAll (q : String) :
    ∀ (cs : List QueryStage) (st : FragState) (pid : Nat),
    linkAll (requeryState q st) pid (cs.map (setQid q)) =
      (linkAll st pid cs).map (requeryState q) := by
  intro cs
  induction cs with
  | nil =>
    intro st pid
    rfl
  | cons c rest ih =>
    intro st pid
    unfold linkAll at ih ⊢
    simp only [List.map_cons, List.foldlM_cons]
    rw [show (setQid q c).id = c.id from rfl]
    rw [requeryState_linkToChild]
    cases linkToChild st pid c.id with
    | none => rfl
    | some st2 =>
      exact ih st2 pid

/-- Result transport for `visitNode` / `visitInputs` / `newStage`. -/
def requeryResN (q : String) :
    Option (ExecutionPlanNode × List QueryStage × FragState) →
    Option (ExecutionPlanNode × List QueryStage × FragState) :=
  Option.map (fun r => (r.1, r.2.1.map (setQid q), requeryState q r.2.2))

def requeryResL (q : String) :
    Option (List ExecutionPlanNode × List QueryStage × FragState) →
    Option (List ExecutionPlanNode × List QueryStage × FragState) :=
  Option.map (fun r => (r.1, r.2.1.map (setQid q), requeryState q r.2.2))

def requeryResS (q : String) :
    Option (QueryStage × FragState) → Option (QueryStage × FragState) :=
  Option.map (fun r => (setQid q r.1, requeryState q r.2))

/-- Induction statement: the visit result for query id `q2` is the
`q` result with all stored query ids replaced. -/
def RNode (wc : Nat) (node : PlanRef) : Prop :=
  ∀ q q2 par st,
    visitNode wc q2 par node (requeryState q2 st) =
      requeryResN q2 (visitNode wc q par node st)

def RList (wc : Nat) (l : List PlanRef) : Prop :=
  ∀ q q2 par st,
    visitInputs wc q2 par l (requeryState q2 st) =
      requeryResL q2 (visitInputs wc q par l st)

theorem newStage_requery_some {wc : Nat} {node : PlanRef} (hR : RNode wc node) :
    ∀ (q q2 : String) (par : Nat) (info : ExchangeInfo) (st : FragState),
    newStage wc q2 node (some par) (some info) (requeryState q2 st) =
      requeryResS q2 (newStage wc q node (some par) (some info) st) := by
  intro q q2 par info st
  unfold newStage
  simp only []
  have e2 : ({ requeryState q2 st with
      next := (requeryState q2 st).next + 1 } : FragState) =
      requeryState q2 { st with next := st.next + 1 } := rfl
  rw [e2, hR q q2 wc { st with next := st.next + 1 }]
  cases hv : visitNode wc q wc node { st with next := st.next + 1 } with
  | none => rfl
  | some r =>
    obtain ⟨epn, cs, st2⟩ := r
    simp only [requeryResN, requeryResS, Option.map_some']
    have e3 : (⟨q2, (requeryState q2 st).next, epn, info, wc⟩ : QueryStage) =
        setQid q2 ⟨q, st.next, epn, info, wc⟩ := rfl
    rw [e3, ← requeryState_addNode]
    have e4 : (requeryState q2 st).next = st.next := rfl
    rw [e4]
    rw [requeryState_linkAll q2 cs
      (addNode st2 ⟨q, st.next, epn, info, wc⟩) st.next]
    cases hl : linkAll (addNode st2 ⟨q, st.next, epn, info, wc⟩) st.next cs with
    | none => rfl
    | some st3 => rfl

theorem newStage_requery_none {wc : Nat} {node : PlanRef} (hR : RNode wc node) :
    ∀ (q q2 : String) (st : FragState),
    newStage wc q2 node none none (requeryState q2 st) =
      requeryResS q2 (newStage wc q node none none st) := by
  intro q q2 st
  unfold newStage
  simp only []
  have e2 : ({ requeryState q2 st with
      next := (requeryState q2 st).next + 1 } : FragState) =
      requeryState q2 { st with next := st.next + 1 } := rfl
  rw [e2, hR q q2 1 { st with next := st.next + 1 }]
  cases hv : visitNode wc q 1 node { st with next := st.next + 1 } with
  | none => rfl
  | some r =>
    obtain ⟨epn, cs, st2⟩ := r
    simp only [requeryResN, requeryResS, Option.map_some']
    have e3 : (⟨q2, (requeryState q2 st).next, epn,
        Distribution.Single.to_prost 1, 1⟩ : QueryStage) =
        setQid q2 ⟨q, st.next, epn, Distribution.Single.to_prost 1, 1⟩ := rfl
    rw [e3, ← requeryState_addNode]
    have e4 : (requeryState q2 st).next = st.next := rfl
    rw [e4]
    rw [requeryState_linkAll q2 cs
      (addNode st2 ⟨q, st.next, epn, Distribution.Single.to_prost 1, 1⟩) st.next]
    cases hl : linkAll
        (addNode st2 ⟨q, st.next, epn, Distribution.Single.to_prost 1, 1⟩)
        st.next cs with
    | none => rfl
    | some st3 => rfl

theorem RNode_exchange_nil {wc : Nat} {id body : Nat} {schema : List Nat}
    {dist : Distribution} :
    RNode wc (.node id PlanNodeType.BatchExchange body schema dist []) := by
  intro q q2 par st
  rw [visitNode_exchange_nil, visitNode_exchange_nil]
  rfl

theorem RNode_exchange {wc : Nat} {id body : Nat} {schema : List Nat}
    {dist : Distribution} {input0 : PlanRef} {rest : List PlanRef}
    (hRi : RNode wc input0) :
    RNode wc (.node id PlanNodeType.BatchExchange body schema dist
      (input0 :: rest)) := by
  intro q q2 par st
  rw [visitNode_exchange_cons, visitNode_exchange_cons]
  rw [newStage_requery_some hRi q q2 par (dist.to_prost par) st]
  cases hns : newStage wc q input0 (some par) (some (dist.to_prost par)) st with
  | none => rfl
  | some r =>
    obtain ⟨child_stage, st2⟩ := r
    rfl

theorem RNode_nonexchange {wc : Nat} {id : Nat} {ty : PlanNodeType} {body : Nat}
    {schema : List Nat} {dist : Distribution} {inputs : List PlanRef}
    (hty : ty ≠ PlanNodeType.BatchExchange) (hRL : RList wc inputs) :
    RNode wc (.node id ty body schema dist inputs) := by
  intro q q2 par st
  rw [visitNode_nonexchange _ _ _ _ _ _ _ _ _ _ hty,
    visitNode_nonexchange _ _ _ _ _ _ _ _ _ _ hty]
  rw [hRL q q2 par st]
  cases hvi : visitInputs wc q par inputs st with
  | none => rfl
  | some r =>
    obtain ⟨epns, css, st2⟩ := r
    rfl

theorem RList_nil {wc : Nat} : RList wc [] := by
  intro q q2 par st
  rw [visitInputs_nil, visitInputs_nil]
  rfl

theorem RList_cons {wc : Nat} {c : PlanRef} {rest : List PlanRef}
    (hRn : RNode wc c) (hRL : RList wc rest) : RList wc (c :: rest) := by
  intro q q2 par st
  rw [visitInputs_cons, visitInputs_cons]
  rw [hRn q q2 par st]
  cases hv1 : visitNode wc q par c st with
  | none => rfl
  | some r =>
    obtain ⟨epn, cs1, st1⟩ := r
    simp only [requeryResN, Option.map_some']
    rw [hRL q q2 par st1]
    cases hv2 : visitInputs wc q par rest st1 with
    | none => rfl
    | some r2 =>
      obtain ⟨epns, cs2, st2⟩ := r2
      simp only [requeryResL, Option.map_some', List.map_append]

/-- Query-id independence for every plan node. -/
theorem rnode_all (wc : Nat) :
    ∀ N, (∀ node, sizeOf node < N → RNode wc node) ∧
         (∀ l : List PlanRef, sizeOf l < N → RList wc l) := by
  intro N
  induction N using Nat.strong_induction_on with
  | _ N ih =>
    constructor
    · intro node hN
      obtain ⟨id, ty, body, schema, dist, inputs⟩ := node
      by_cases hty : ty = PlanNodeType.BatchExchange
      · subst hty
        rcases inputs with _ | ⟨input0, rest⟩
        · exact RNode_exchange_nil
        · have hsz : sizeOf input0 <
              sizeOf (PlanRef.node id PlanNodeType.BatchExchange body schema dist
                (input0 :: rest)) := by
            simp [PlanRef.node.sizeOf_spec]
            try omega
          exact RNode_exchange ((ih _ hN).1 input0 hsz)
      · have hsz : sizeOf inputs <
            sizeOf (PlanRef.node id ty body schema dist inputs) := by
          simp [PlanRef.node.sizeOf_spec]
          try omega
        exact RNode_nonexchange hty ((ih _ hN).2 inputs hsz)
    · intro l hN
      rcases l with _ | ⟨c, rest⟩
      · exact RList_nil
      · have hsz1 : sizeOf c < sizeOf (c :: rest) := by
          simp
          try omega
        have hsz2 : sizeOf rest < sizeOf (c :: rest) := by
          simp
          try omega
        exact RList_cons ((ih _ hN).1 c hsz1) ((ih _ hN).2 rest hsz2)

/-- Running `split` with one query id is the `split` with another, with every
stored query id replaced. -/
theorem split_requery (wc : Nat) (q1 q2 : String) (plan : PlanRef) :
    split wc q1 plan = (split wc q2 plan).map (requeryQuery q1) := by
  have hR : RNode wc plan :=
    (rnode_all wc (sizeOf plan + 1)).1 plan (Nat.lt_succ_self _)
  unfold split
  have hinit : (⟨0, [], [], []⟩ : FragState) =
      requeryState q1 ⟨0, [], [], []⟩ := rfl
  conv_lhs => rw [hinit]
  rw [newStage_requery_none hR q2 q1 ⟨0, [], [], []⟩]
  cases hns : newStage wc q2 plan none none ⟨0, [], [], []⟩ with
  | none => rfl
  | some r =>
    obtain ⟨root_stage, stF⟩ := r
    rfl

/-! ### Shared corollaries about malformed exchanges and stage counts -/

/-- An exchange operator with no inputs makes `split` abort: the code
indexes `node.inputs()[0]`, which panics, modelled as `none`. -/
theorem split_exchange_no_input (wc : Nat) (qid : String) (id body : Nat)
    (schema : List Nat) (dist : Distribution) :
    split wc qid (.node id PlanNodeType.BatchExchange body schema dist []) =
      none := by
  have h : newStage wc qid
      (.node id PlanNodeType.BatchExchange body schema dist []) none none
      ⟨0, [], [], []⟩ = none := by
    unfold newStage
    simp only []
    rw [visitNode_exchange_nil]
  unfold split
  rw [h]

/-- An exchange operator with several inputs does not fail: the code reads
only `inputs()[0]`, so the extra inputs are silently ignored. -/
theorem split_exchange_extra_inputs (wc : Nat) (qid : String) (id body : Nat)
    (schema : List Nat) (dist : Distribution) (i : PlanRef)
    (rest : List PlanRef) :
    split wc qid
      (.node id PlanNodeType.BatchExchange body schema dist (i :: rest)) =
    split wc qid (.node id PlanNodeType.BatchExchange body schema dist [i]) := by
  have hns : ∀ pp ei st,
      newStage wc qid
        (.node id PlanNodeType.BatchExchange body schema dist (i :: rest))
        pp ei st =
      newStage wc qid (.node id PlanNodeType.BatchExchange body schema dist [i])
        pp ei st := by
    intro pp ei st
    unfold newStage
    simp only []
    rw [visitNode_exchange_cons, visitNode_exchange_cons]
  unfold split
  rw [hns]

/-- On a unary-exchange plan, `split` succeeds and emits exactly
`1 + countExchanges plan` stages. -/
theorem split_stage_count (wc : Nat) (qid : String) (plan : PlanRef)
    (hu : unaryEx plan = true) :
    ∃ q, split wc qid plan = some q ∧
      q.stage_graph.stages.length = 1 + countExchanges plan := by
  have hs := split_isSome wc qid plan hu
  rcases hq : split wc qid plan with _ | q
  · rw [hq] at hs
    cases hs
  · exact ⟨q, rfl, (split_spec hq).cntStages hu⟩

/-! ### Example plans used by witnesses and counterexamples -/

/-- A bare sequential scan. -/
def egScan : PlanRef :=
  .node 1 PlanNodeType.BatchSeqScan 10 [5] Distribution.AnyShard []

/-- A single exchange over a scan (one cut, two stages). -/
def egEx : PlanRef :=
  .node 2 PlanNodeType.BatchExchange 20 [5] Distribution.Single [egScan]

/-- A malformed plan: the root exchange has two inputs, and its second
input itself contains an exchange (which the traversal never reaches). -/
def egBad3 : PlanRef :=
  .node 3 PlanNodeType.BatchExchange 21 [] Distribution.Single
    [egScan, .node 4 PlanNodeType.BatchExchange 22 [] Distribution.Single [egScan]]

/-- A malformed plan: an exchange with two scan inputs. -/
def eg2in : PlanRef :=
  .node 5 PlanNodeType.BatchExchange 23 [] Distribution.Single [egScan, egScan]

/-- A query emitted on the well-formed example with three workers. -/
def egQA : Query :=
  (split 3 "wA" egEx).get (split_isSome 3 "wA" egEx (by decide))

theorem egQA_spec : split 3 "wA" egEx = some egQA :=
  (Option.some_get (split_isSome 3 "wA" egEx (by decide))).symm

/-- The query emitted by the run drawing entropy 0 on `egEx`. -/
def egQ0 : Query :=
  (splitRun 3 0 egEx).get (split_isSome 3 (freshQueryId 0) egEx (by decide))

theorem egQ0_spec : splitRun 3 0 egEx = some egQ0 :=
  (Option.some_get (split_isSome 3 (freshQueryId 0) egEx (by decide))).symm

/-- The query emitted by the run drawing entropy 1 on `egEx`. -/
def egQ1 : Query :=
  (splitRun 3 1 egEx).get (split_isSome 3 (freshQueryId 1) egEx (by decide))

theorem egQ1_spec : splitRun 3 1 egEx = some egQ1 :=
  (Option.some_get (split_isSome 3 (freshQueryId 1) egEx (by decide))).symm

/-! ### The claims -/

/-- C1: in every Query emitted by a successful `split`, every StageId that
is a key of `stages` is also a key of both `child_edges` and
`parent_edges`, and `c ∈ child_edges[p]` iff `p ∈ parent_edges[c]`. -/
theorem claim_C1 (wc : Nat) (qid : String) (plan : PlanRef) (q : Query)
    (h : split wc qid plan = some q) :
    (∀ k, (mapGet q.stage_graph.stages k).isSome →
      (mapGet q.stage_graph.child_edges k).isSome ∧
      (mapGet q.stage_graph.parent_edges k).isSome) ∧
    (∀ p c, edgeMem q.stage_graph.child_edges p c ↔
      edgeMem q.stage_graph.parent_edges c p) := by
  have g := split_spec h
  exact ⟨fun k hk => ⟨(g.domC k).mp hk, (g.domP k).mp hk⟩, g.symE⟩

theorem claim_C1_witness :
    split 3 "wA" egEx = some egQA ∧
    ((∀ k, (mapGet egQA.stage_graph.stages k).isSome →
      (mapGet egQA.stage_graph.child_edges k).isSome ∧
      (mapGet egQA.stage_graph.parent_edges k).isSome) ∧
    (∀ p c, edgeMem egQA.stage_graph.child_edges p c ↔
      edgeMem egQA.stage_graph.parent_edges c p)) :=
  ⟨egQA_spec, claim_C1 3 "wA" egEx egQA egQA_spec⟩

/-- C2: in every emitted Query, every execution-plan node of type
`BatchExchange` is a leaf whose `stage_id` names a child stage of the
enclosing stage, and every other node has `stage_id = none`. -/
theorem claim_C2 (wc : Nat) (qid : String) (plan : PlanRef) (q : Query)
    (h : split wc qid plan = some q) :
    ∀ k s, mapGet q.stage_graph.stages k = some s →
    ∀ e ∈ epnNodes s.root,
    (e.plan_node_type = PlanNodeType.BatchExchange →
      e.children = [] ∧ ∃ c, e.stage_id = some c ∧
        edgeMem q.stage_graph.child_edges k c) ∧
    (e.plan_node_type ≠ PlanNodeType.BatchExchange → e.stage_id = none) :=
  (split_spec h).stEpn

theorem claim_C2_witness :
    split 3 "wA" egEx = some egQA ∧
    (∀ k s, mapGet egQA.stage_graph.stages k = some s →
    ∀ e ∈ epnNodes s.root,
    (e.plan_node_type = PlanNodeType.BatchExchange →
      e.children = [] ∧ ∃ c, e.stage_id = some c ∧
        edgeMem egQA.stage_graph.child_edges k c) ∧
    (e.plan_node_type ≠ PlanNodeType.BatchExchange → e.stage_id = none)) :=
  ⟨egQA_spec, claim_C2 3 "wA" egEx egQA egQA_spec⟩

/-- C3 as stated is false: the traversal only ever descends into
`inputs()[0]` of an exchange, so exchanges below a further input of a
malformed (non-unary) exchange are never counted.  On `egBad3` the plan
holds 2 exchange operators but the emitted query has only 2 stages, not 3. -/
theorem claim_C3_counterexample :
    ∃ q, split 3 "q0" egBad3 = some q ∧
      q.stage_graph.stages.length ≠ 1 + countExchanges egBad3 := by
  have he := split_exchange_extra_inputs 3 "q0" 3 21 [] Distribution.Single
    egScan [.node 4 PlanNodeType.BatchExchange 22 [] Distribution.Single [egScan]]
  obtain ⟨q, hq, hlen⟩ := split_stage_count 3 "q0"
    (.node 3 PlanNodeType.BatchExchange 21 [] Distribution.Single [egScan])
    (by decide)
  refine ⟨q, ?_, ?_⟩
  · rw [show split 3 "q0" egBad3 = _ from he]
    exact hq
  · rw [hlen]
    decide

/-- C3 (amended): for every input plan tree in which every exchange
operator has exactly one input, `split` succeeds and the emitted Query
contains exactly `1 + countExchanges plan` stages. -/
theorem claim_C3 (wc : Nat) (qid : String) (plan : PlanRef)
    (hu : unaryEx plan = true) :
    ∃ q, split wc qid plan = some q ∧
      q.stage_graph.stages.length = 1 + countExchanges plan :=
  split_stage_count wc qid plan hu

theorem claim_C3_witness :
    unaryEx egEx = true ∧
    (∃ q, split 3 "w3" egEx = some q ∧
      q.stage_graph.stages.length = 1 + countExchanges egEx) :=
  ⟨by decide, claim_C3 3 "w3" egEx (by decide)⟩

/-- C4: on every emitted stage graph, `stage_ids_by_topo_order` succeeds,
yields each stage id exactly once (a nodup enumeration of the keys of
`stages`), and every child stage appears strictly before each of its
parents. -/
theorem claim_C4 (wc : Nat) (qid : String) (plan : PlanRef) (q : Query)
    (h : split wc qid plan = some q) :
    ∃ l, stage_ids_by_topo_order q.stage_graph = some l ∧
      l.Nodup ∧
      (∀ k, k ∈ l ↔ (mapGet q.stage_graph.stages k).isSome) ∧
      (∀ p c, edgeMem q.stage_graph.child_edges p c →
        List.indexOf c l < List.indexOf p l) :=
  topo_order_spec (split_spec h)

theorem claim_C4_witness :
    split 3 "wA" egEx = some egQA ∧
    (∃ l, stage_ids_by_topo_order egQA.stage_graph = some l ∧
      l.Nodup ∧
      (∀ k, k ∈ l ↔ (mapGet egQA.stage_graph.stages k).isSome) ∧
      (∀ p c, edgeMem egQA.stage_graph.child_edges p c →
        List.indexOf c l < List.indexOf p l)) :=
  ⟨egQA_spec, claim_C4 3 "wA" egEx egQA egQA_spec⟩

/-- C5: every emitted Query has `root_stage_id = 0`, and stage 0 has
parallelism 1 and an `exchange_info` encoding the `Single` distribution
over parallelism 1, for every worker-node count. -/
theorem claim_C5 (wc : Nat) (qid : String) (plan : PlanRef) (q : Query)
    (h : split wc qid plan = some q) :
    q.stage_graph.root_stage_id = 0 ∧
    ∃ s, mapGet q.stage_graph.stages 0 = some s ∧ s.parallelism = 1 ∧
      s.exchange_info = Distribution.Single.to_prost 1 := by
  have g := split_spec h
  exact ⟨g.rootId, g.rootStage⟩

theorem claim_C5_witness :
    split 3 "wA" egEx = some egQA ∧
    (egQA.stage_graph.root_stage_id = 0 ∧
    ∃ s, mapGet egQA.stage_graph.stages 0 = some s ∧ s.parallelism = 1 ∧
      s.exchange_info = Distribution.Single.to_prost 1) :=
  ⟨egQA_spec, claim_C5 3 "wA" egEx egQA egQA_spec⟩

/-- C6: every non-root stage of an emitted Query has parallelism equal to
the worker-node count snapshot. -/
theorem claim_C6 (wc : Nat) (qid : String) (plan : PlanRef) (q : Query)
    (h : split wc qid plan = some q) :
    ∀ k s, mapGet q.stage_graph.stages k = some s → k ≠ 0 →
      s.parallelism = wc :=
  (split_spec h).nonRootPar

theorem claim_C6_witness :
    split 3 "wA" egEx = some egQA ∧
    (∀ k s, mapGet egQA.stage_graph.stages k = some s → k ≠ 0 →
      s.parallelism = 3) :=
  ⟨egQA_spec, claim_C6 3 "wA" egEx egQA egQA_spec⟩

/-- C7 as stated is false: with a zero-worker snapshot and a plan that
contains an exchange, `split` does not fail at all — there is no
`EmptyCluster` check in the code; it succeeds (emitting non-root stages
with parallelism 0). -/
theorem claim_C7_counterexample : (split 0 "q0" egEx).isSome = true :=
  split_isSome 0 "q0" egEx (by decide)

/-- C7 (amended): with a zero-worker snapshot, `split` on a unary-exchange
plan succeeds; every non-root stage gets parallelism 0 (no `EmptyCluster`
error exists), and a plan with no exchange yields only the root stage with
parallelism 1. -/
theorem claim_C7 (qid : String) (plan : PlanRef) (hu : unaryEx plan = true) :
    ∃ q, split 0 qid plan = some q ∧
      (∀ k s, mapGet q.stage_graph.stages k = some s → k ≠ 0 →
        s.parallelism = 0) ∧
      (countExchanges plan = 0 →
        q.stage_graph.stages.length = 1 ∧
        ∃ s, mapGet q.stage_graph.stages 0 = some s ∧ s.parallelism = 1) := by
  have hs := split_isSome 0 qid plan hu
  rcases hq : split 0 qid plan with _ | q
  · rw [hq] at hs
    cases hs
  have g := split_spec hq
  refine ⟨q, rfl, g.nonRootPar, fun hc => ⟨?_, ?_⟩⟩
  · rw [g.cntStages hu, hc]
  · obtain ⟨s, hs0, hp, _⟩ := g.rootStage
    exact ⟨s, hs0, hp⟩

theorem claim_C7_witness :
    unaryEx egEx = true ∧
    (∃ q, split 0 "w7" egEx = some q ∧
      (∀ k s, mapGet q.stage_graph.stages k = some s → k ≠ 0 →
        s.parallelism = 0) ∧
      (countExchanges egEx = 0 →
        q.stage_graph.stages.length = 1 ∧
        ∃ s, mapGet q.stage_graph.stages 0 = some s ∧ s.parallelism = 1)) :=
  ⟨by decide, claim_C7 "w7" egEx (by decide)⟩

/-- C8 as stated is false: an exchange operator with two inputs does not
make `split` fail — the code silently uses only the first input, and no
`MalformedPlan` error exists. -/
theorem claim_C8_counterexample : (split 3 "q0" eg2in).isSome = true := by
  have he := split_exchange_extra_inputs 3 "q0" 5 23 [] Distribution.Single
    egScan [egScan]
  rw [show split 3 "q0" eg2in = _ from he]
  exact split_isSome 3 "q0"
    (.node 5 PlanNodeType.BatchExchange 23 [] Distribution.Single [egScan])
    (by decide)

/-- C8 (amended): an exchange with zero inputs makes `split` abort with an
out-of-bounds panic (modelled as `none`, not a `MalformedPlan` error), and
an exchange with extra inputs does not fail at all: `split` behaves as if
only the first input were present. -/
theorem claim_C8 :
    (∀ (wc : Nat) (qid : String) (id body : Nat) (schema : List Nat)
      (dist : Distribution),
      split wc qid (.node id PlanNodeType.BatchExchange body schema dist []) =
        none) ∧
    (∀ (wc : Nat) (qid : String) (id body : Nat) (schema : List Nat)
      (dist : Distribution) (i : PlanRef) (rest : List PlanRef),
      split wc qid
        (.node id PlanNodeType.BatchExchange body schema dist (i :: rest)) =
      split wc qid
        (.node id PlanNodeType.BatchExchange body schema dist [i])) :=
  ⟨split_exchange_no_input, split_exchange_extra_inputs⟩

/-- C9 as stated is false: two fragmenter runs draw distinct query ids
from the entropy source, so the emitted Queries differ (in their query
identity) even on identical plans and worker snapshots. -/
theorem claim_C9_counterexample : splitRun 3 0 egEx ≠ splitRun 3 1 egEx := by
  have h0 : (splitRun 3 0 egEx).isSome :=
    split_isSome 3 (freshQueryId 0) egEx (by decide)
  intro heq
  rcases hs0 : splitRun 3 0 egEx with _ | q0
  · rw [hs0] at h0
    cases h0
  rcases hs1 : splitRun 3 1 egEx with _ | q1
  · rw [hs0, hs1] at heq
    cases heq
  have e0 : q0.query_id = freshQueryId 0 := (split_spec hs0).qidEq
  have e1 : q1.query_id = freshQueryId 1 := (split_spec hs1).qidEq
  rw [hs0, hs1] at heq
  injection heq with hq
  rw [hq, e1] at e0
  exact absurd e0 (by decide)

/-- C9 (amended): `split` is deterministic apart from the query identity.
Two runs on the same plan and worker snapshot give the same Query up to
restamping the query id; both runs' topological-order sequences enumerate
the same stage ids exactly once and are therefore permutations of each
other.  (Equality of the sequences themselves is not claimed: the source
iterates `HashSet`s whose per-run random seeds leave the enumeration order
of a stage's children unspecified.) -/
theorem claim_C9 (wc e1 e2 : Nat) (plan : PlanRef) :
    splitRun wc e1 plan =
      (splitRun wc e2 plan).map (requeryQuery (freshQueryId e1)) ∧
    (∀ q1 q2, splitRun wc e1 plan = some q1 → splitRun wc e2 plan = some q2 →
      ∃ l1 l2, stage_ids_by_topo_order q1.stage_graph = some l1 ∧
        stage_ids_by_topo_order q2.stage_graph = some l2 ∧ l1.Perm l2) := by
  refine ⟨split_requery wc (freshQueryId e1) (freshQueryId e2) plan, ?_⟩
  intro q1 q2 hq1 hq2
  obtain ⟨l1, hl1, hnd1, hmem1, _⟩ := topo_order_spec (split_spec hq1)
  obtain ⟨l2, hl2, hnd2, hmem2, _⟩ := topo_order_spec (split_spec hq2)
  refine ⟨l1, l2, hl1, hl2, ?_⟩
  rw [List.perm_ext_iff_of_nodup hnd1 hnd2]
  intro k
  rw [hmem1 k, hmem2 k]
  have h1 := split_requery wc (freshQueryId e1) (freshQueryId e2) plan
  have hq1' : splitRun wc e1 plan =
      (splitRun wc e2 plan).map (requeryQuery (freshQueryId e1)) := h1
  rw [hq1, hq2] at hq1'
  injection hq1' with hq
  subst hq
  have hmg : mapGet (requeryQuery (freshQueryId e1) q2).stage_graph.stages k =
      (mapGet q2.stage_graph.stages k).map (setQid (freshQueryId e1)) :=
    mapGet_map (setQid (freshQueryId e1)) q2.stage_graph.stages k
  rw [hmg]
  cases mapGet q2.stage_graph.stages k with
  | none => simp
  | some s => simp

theorem claim_C9_witness :
    (splitRun 3 0 egEx = (splitRun 3 1 egEx).map (requeryQuery (freshQueryId 0))) ∧
    (∃ l1 l2, stage_ids_by_topo_order egQ0.stage_graph = some l1 ∧
      stage_ids_by_topo_order egQ1.stage_graph = some l2 ∧ l1.Perm l2) :=
  ⟨(claim_C9 3 0 1 egEx).1, (claim_C9 3 0 1 egEx).2 egQ0 egQ1 egQ0_spec egQ1_spec⟩

/-- C10: the stage ids of every emitted Query are exactly
`{0, …, n-1}` for `n` the number of stages, and every edge goes from a
smaller (parent) id to a larger (child) id, so ascending id order is a
parent-before-child order. -/
theorem claim_C10 (wc : Nat) (qid : String) (plan : PlanRef) (q : Query)
    (h : split wc qid plan = some q) :
    (∀ k, (mapGet q.stage_graph.stages k).isSome ↔
      k < q.stage_graph.stages.length) ∧
    (∀ p c, edgeMem q.stage_graph.child_edges p c → p < c) := by
  have g := split_spec h
  exact ⟨g.keysDense, g.edgeLT⟩

theorem claim_C10_witness :
    split 3 "wA" egEx = some egQA ∧
    ((∀ k, (mapGet egQA.stage_graph.stages k).isSome ↔
      k < egQA.stage_graph.stages.length) ∧
    (∀ p c, edgeMem egQA.stage_graph.child_edges p c → p < c)) :=
  ⟨egQA_spec, claim_C10 3 "wA" egEx egQA egQA_spec⟩

end PlanFragmenter
